import Mathlib

/-
Verification of the hally HAL-embedding core (src/index.js, current version
exporting halJson / linkHref / stateBody / toState).

Modelling choices (shallow embedding):
- JavaScript objects holding the reserved maps are modelled as heap cells
  (HalObj) addressed by natural-number references (Ref); object identity
  in JS is reference equality here.
- Promises and the single-threaded cooperative scheduler are modelled by a
  deterministic sequential interpreter threading an explicit state
  (heap, request context, transport log) and returning Except Err; a
  rejected promise is an Except.error, so a failure of any step fails the
  whole call, exactly as a rejected promise propagated by Promise.all.
- The three mutually recursive source functions are written with an
  explicit fuel argument that decreases at every mutual call; fuel is a
  modelling device only: the development proves that any fuel of at least
  three steps per nesting level of the embed request gives the same,
  fuel-exhaustion-free result, which is the termination and depth bound of
  the source.  Iteration over object keys and over href arrays is done by
  fuel-free folds, so the fuel bound depends only on the embed request.
- The external transport (global fetch plus response.json) is an
  environment function Env from options and URI to an optional decoded
  document (none = transport or parse failure).  The URI-template
  collaborator is a function parameter named expand.
- A JS TypeError from reading a field of undefined (for example
  accessing the self href when the links map is missing) is Err.typeError.
  Property access that yields undefined WITHOUT throwing (the href of an
  array-valued self link) is not an error: as a value it is modelled none,
  and where the source uses it as a property key or URL it is modelled as
  the string "undefined", the JS string coercion.
- JS objects are association lists; property assignment replaces an
  existing binding in place or appends a new one, as in JS.
-/

namespace Hally

/-- A reference into the heap: models JS object identity. -/
abbrev Ref := Nat

/-- A HAL link; only href and templated are ever read by the core. -/
structure Link where
  href : String
  templated : Bool

/-- A value that is either a single item or a JS array of items, as
distinguished dynamically by Array.isArray in the source. -/
inductive OneOrMany (α : Type) where
  | one : α → OneOrMany α
  | many : List α → OneOrMany α

/-- URI-template parameters, opaque to the core (passed to expand only). -/
abbrev Params := List (String × String)

/- An embed request, from the EmbedRequest typedef of the source: a JS
object mapping a relation name to a child embed request or null.  The
family below is the JS value space: ReqChild.null is the JS null or
undefined, ReqChild.node is an object, whose entries are a ReqEntries
chain in key order. -/
mutual
inductive EmbedReq : Type where
  | mk : ReqEntries → EmbedReq

inductive ReqEntries : Type where
  | nil : ReqEntries
  | cons : String → ReqChild → ReqEntries → ReqEntries

inductive ReqChild : Type where
  | null : ReqChild
  | node : EmbedReq → ReqChild
end

/- A decoded wire document (the result of response.json): links and the
two presence flags record whether the reserved maps exist on the wire; an
embedded entry holds a single document or a JS array of documents. -/
mutual
inductive HalWire : Type where
  | mk : Bool → List (String × OneOrMany Link) → Bool → WireEntries → HalWire

inductive WireEntries : Type where
  | nil : WireEntries
  | cons : String → WireVal → WireEntries → WireEntries

inductive WireVal : Type where
  | one : HalWire → WireVal
  | many : WireList → WireVal

inductive WireList : Type where
  | nil : WireList
  | cons : HalWire → WireList → WireList
end

/-- The fetch options object; the core reads only its embeds property
(in halJson) and passes the object through to the transport unmodified. -/
structure Opts where
  embeds : ReqChild

/-- The external transport: fetch of a URI with the given options followed
by response.json; none models a transport or parse failure. -/
abbrev Env := Opts → String → Option HalWire

/-- A heap cell: a live JS HAL resource object.  The embedded map holds
references, so shared and cyclic structures are representable. -/
structure HalObj where
  linksPresent : Bool
  links : List (String × OneOrMany Link)
  embPresent : Bool
  embedded : List (String × OneOrMany Ref)

/-- The heap: cell i of the list is the object with reference i. -/
abbrev Heap := List HalObj

/-- Errors of a run: a transport failure for a URI, a JS TypeError, or
fuel exhaustion (a modelling artifact, proved unreachable for fuel of at
least three steps per request nesting level). -/
inductive Err where
  | fetchFail : String → Err
  | typeError : Err
  | fuelOut : Err

/-- The state threaded through a top-level call: the heap, the request
context (URI to resource reference) and the transport invocation log. -/
structure St where
  heap : Heap
  ctx : List (String × Ref)
  log : List String

/-- Lookup in a JS-object-like association list. -/
def alookup {α : Type} : List (String × α) → String → Option α
  | [], _ => none
  | (k, v) :: rest, key => if k = key then some v else alookup rest key

/-- Property assignment on a JS-object-like association list: replaces the
binding in place if the key exists, appends otherwise. -/
def aset {α : Type} : List (String × α) → String → α → List (String × α)
  | [], key, v => [(key, v)]
  | (k, w) :: rest, key, v =>
      if k = key then (k, v) :: rest else (k, w) :: aset rest key v

/-- Heap dereference. -/
def heapGet (h : Heap) (r : Ref) : Option HalObj := h.get? r

/-- Heap cell update. -/
def heapSet (h : Heap) (r : Ref) (o : HalObj) : Heap := h.set r o

/-- The references held by a single-or-array embedded entry. -/
def oomRefs : OneOrMany Ref → List Ref
  | .one r => [r]
  | .many rs => rs

/-- The href of a single self link of an object: some href exactly when
the links map is present and holds a single (non-array) link under self.
none by itself is not an error: the distinct failure modes of the source
expression links.self.href (throwing versus yielding undefined) are
distinguished by selfHrefAt and selfKey below. -/
def selfLink (o : HalObj) : Option String :=
  if o.linksPresent then
    match alookup o.links "self" with
    | some (.one l) => some l.href
    | _ => none
  else none

/-- The href of a single self link of the object behind a reference. -/
def selfAt (h : Heap) (r : Ref) : Option String :=
  match heapGet h r with
  | some o => selfLink o
  | none => none

/-- The value of the source expression e._links.self.href for the object
behind a reference: a TypeError when the links map or the self entry is
missing (property access on undefined throws), the JS undefined value
(modelled ok none) when the self entry is an array (property access on an
array yields undefined without throwing), and the href of a single self
link. -/
def selfHrefAt (h : Heap) (r : Ref) : Except Err (Option String) :=
  match heapGet h r with
  | none => .error .typeError
  | some o =>
    if o.linksPresent then
      match alookup o.links "self" with
      | some (.one l) => .ok (some l.href)
      | some (.many _) => .ok none
      | none => .error .typeError
    else .error .typeError

/-- The property key the source registers an object under in the request
context (addToContext line context[resource._links.self.href] = resource):
none when the self-href expression throws (links map or self entry
missing), the href of a single self link, and the string "undefined" for
an array-valued self entry, because the undefined href is coerced to that
string when used as a property key. -/
def selfKey (o : HalObj) : Option String :=
  if o.linksPresent then
    match alookup o.links "self" with
    | some (.one l) => some l.href
    | some (.many _) => some "undefined"
    | none => none
  else none

/-- The registration key of the object behind a reference. -/
def selfKeyAt (h : Heap) (r : Ref) : Option String :=
  match heapGet h r with
  | some o => selfKey o
  | none => none

/-- The href of a single self link of a wire document (before
allocation); the well-formedness notion WfEnv requires exactly this of
every document the transport serves. -/
def wireSelf : HalWire → Option String
  | .mk lp links _ _ =>
    if lp then
      match alookup links "self" with
      | some (.one l) => some l.href
      | _ => none
    else none

/-- The registration key of a wire document: the wire-level twin of
selfKey, with the same property-key coercion of an undefined href. -/
def wireSelfKey : HalWire → Option String
  | .mk lp links _ _ =>
    if lp then
      match alookup links "self" with
      | some (.one l) => some l.href
      | some (.many _) => some "undefined"
      | none => none
    else none

/-- Source resolveUri: pass a URI through unchanged, or expand it with the
URI-template collaborator whenever parameters are given and the string is
truthy; the templated flag of the link is never consulted by the source. -/
def resolveUri (expand : String → Params → String) (uri : String)
    (params : Option Params) : String :=
  match params with
  | none => uri
  | some p => if uri = "" then uri else expand uri p

/-- Source linkHref: the target URI of a link relation on a resource.
Links take priority; embedded resources under the relation are a fallback
whose self-href expressions supply the hrefs; otherwise null (none).  The
Except layer models the TypeError raised when a fallback embedded
resource lacks the links map or the self entry.  A single embedded
resource whose self entry is an array yields the undefined href without
throwing: falsy like null, the relation resolves to no target (ok none).
In the array fallback an element whose self entry is an array puts the
undefined href into the returned array; every later use of that element
(the in operator on the context, the property assignment, the fetch URL)
coerces it to the string "undefined", so it is modelled as that string at
entry. -/
def linkHrefE (expand : String → Params → String) (h : Heap) (o : HalObj)
    (rel : String) (params : Option Params) :
    Except Err (Option (OneOrMany String)) :=
  match alookup o.links rel with
  | some (.one l) => .ok (some (.one (resolveUri expand l.href params)))
  | some (.many ls) =>
      .ok (some (.many (ls.map (fun l => resolveUri expand l.href params))))
  | none =>
      match alookup o.embedded rel with
      | some (.one r) =>
          match selfHrefAt h r with
          | .ok (some s) => .ok (some (.one s))
          | .ok none => .ok none
          | .error _ => .error .typeError
      | some (.many rs) =>
          match (rs.mapM (fun r => selfKeyAt h r) : Option (List String)) with
          | some ss => .ok (some (.many ss))
          | none => .error .typeError
      | none => .ok none

/- Allocation plus registration bookkeeping for a freshly parsed document
(source addToContext applied to the result of response.json): allocates
every node of the wire tree into the heap (children before the parent, so
the parent cell can hold their references), normalizes the embedded map to
exist on every node, and returns the root reference together with the
pre-order list of context registrations (registration key, reference),
parent first, in exactly the order addToContext performs the context
writes.  none models the TypeError raised when some node lacks a links
map or a self entry; an array-valued self entry does not raise: its href
reads as undefined and the node registers under the coerced property key
"undefined". -/
mutual
def allocWire : HalWire → Heap → Option (Ref × Heap × List (String × Ref))
  | .mk lp links _ep emb, heap =>
    match allocEntries emb heap with
    | none => none
    | some (embRefs, heap1, childRegs) =>
      let o : HalObj := ⟨lp, links, true, embRefs⟩
      match selfKey o with
      | none => none
      | some s => some (heap1.length, heap1 ++ [o], (s, heap1.length) :: childRegs)

def allocEntries : WireEntries → Heap →
    Option (List (String × OneOrMany Ref) × Heap × List (String × Ref))
  | .nil, heap => some ([], heap, [])
  | .cons rel v rest, heap =>
    match allocVal v heap with
    | none => none
    | some (rs, heap1, regs1) =>
      match allocEntries rest heap1 with
      | none => none
      | some (restRefs, heap2, regs2) =>
          some ((rel, rs) :: restRefs, heap2, regs1 ++ regs2)

def allocVal : WireVal → Heap →
    Option (OneOrMany Ref × Heap × List (String × Ref))
  | .one w, heap =>
    match allocWire w heap with
    | none => none
    | some (r, heap1, regs) => some (.one r, heap1, regs)
  | .many ws, heap =>
    match allocList ws heap with
    | none => none
    | some (rs, heap1, regs) => some (.many rs, heap1, regs)

def allocList : WireList → Heap →
    Option (List Ref × Heap × List (String × Ref))
  | .nil, heap => some ([], heap, [])
  | .cons w rest, heap =>
    match allocWire w heap with
    | none => none
    | some (r, heap1, regs1) =>
      match allocList rest heap1 with
      | none => none
      | some (rs, heap2, regs2) => some (r :: rs, heap2, regs1 ++ regs2)
end

/- Sizes of the wire family, used to derive a joint induction principle. -/
mutual
def wireSize : HalWire → Nat
  | .mk _ _ _ emb => 1 + entsSize emb

def entsSize : WireEntries → Nat
  | .nil => 1
  | .cons _ v rest => 1 + valSize v + entsSize rest

def valSize : WireVal → Nat
  | .one w => 1 + wireSize w
  | .many ws => 1 + listSize ws

def listSize : WireList → Nat
  | .nil => 1
  | .cons w rest => 1 + wireSize w + listSize rest
end

/-- Apply a list of context registrations in order; per JS property
assignment, a later write to the same key wins. -/
def applyRegs (regs : List (String × Ref)) (ctx : List (String × Ref)) :
    List (String × Ref) :=
  regs.foldl (fun c p => aset c p.1 p.2) ctx

/-- The entries of an optional embed request; the source line defaulting a
falsy embeds argument to the empty object makes a null request empty. -/
def reqEntries : ReqChild → ReqEntries
  | .null => .nil
  | .node (.mk es) => es

/-- The number of entries of a request entry chain. -/
def entLen : ReqEntries → Nat
  | .nil => 0
  | .cons _ _ rest => entLen rest + 1

/-- Membership of a relation/child pair in a request entry chain. -/
def EntIn (rel : String) (child : ReqChild) : ReqEntries → Prop
  | .nil => False
  | .cons r c rest => (rel = r ∧ child = c) ∨ EntIn rel child rest

/-- Concatenation of request entry chains (used to address one entry of a
request inside the surrounding entries). -/
def entApp : ReqEntries → ReqEntries → ReqEntries
  | .nil, es => es
  | .cons r c rest, es => .cons r c (entApp rest es)

/-- Sequential realization of the map over object keys joined by
Promise.all in source fetchAndEmbedLinks: process the entries in order
with the given step, failing the whole fold at the first failing step. -/
def foldEntries (step : String → ReqChild → St → Except Err (Option Ref × St)) :
    ReqEntries → St → Except Err St
  | .nil, st => .ok st
  | .cons rel child rest, st =>
    match step rel child st with
    | .error e => .error e
    | .ok (_, st1) => foldEntries step rest st1

/-- Sequential realization of the Promise.all over an href array in source
fetchAndEmbedLink: fetch each href in order, collecting the resulting
resource references, failing the whole fold at the first failure. -/
def foldHrefs (step : String → St → Except Err (Ref × St)) :
    List String → St → Except Err (List Ref × St)
  | [], st => .ok ([], st)
  | h :: rest, st =>
    match step h st with
    | .error e => .error e
    | .ok (r, st1) =>
      match foldHrefs step rest st1 with
      | .error e => .error e
      | .ok (rs, st2) => .ok (r :: rs, st2)

/- The interpreter of the recursive core, one function per source
function:

- fetchHalJson uri: if the URI has a context slot, reuse the resource it
  denotes (the source re-assigns the slot a resolved promise of its own
  value, which changes nothing observable); otherwise invoke the
  transport, log the invocation, allocate the decoded document, claim the
  slot for the URI and apply the addToContext registrations on top of the
  claim, in source order.  Either way, finish with fetchAndEmbedLinks.
- fetchAndEmbedLinks: run every entry of the embed request on the
  resource, then resolve to the resource.
- fetchAndEmbedLink: resolve the relation with linkHref (no params); a
  falsy result (null, undefined, or an empty-string single href) skips
  the relation without error and without touching the embedded map
  (null and undefined are both ok none of linkHrefE); otherwise fetch
  every target through fetchHalJson and assign the result, with matching
  plurality, into the live embedded map of the resource, which is read
  again at assignment time because nested calls may have mutated it. -/
mutual
def fetchHalJson (env : Env) (opts : Opts) :
    Nat → String → ReqChild → St → Except Err (Ref × St)
  | 0, _, _, _ => .error .fuelOut
  | f + 1, uri, embeds, st =>
    match alookup st.ctx uri with
    | some r => fetchAndEmbedLinks env opts f r embeds st
    | none =>
      match env opts uri with
      | none => .error (.fetchFail uri)
      | some w =>
        match allocWire w st.heap with
        | none => .error .typeError
        | some (ref, heap1, regs) =>
          fetchAndEmbedLinks env opts f ref embeds
            ⟨heap1, applyRegs regs (aset st.ctx uri ref), st.log ++ [uri]⟩

def fetchAndEmbedLinks (env : Env) (opts : Opts) :
    Nat → Ref → ReqChild → St → Except Err (Ref × St)
  | 0, _, _, _ => .error .fuelOut
  | f + 1, ref, embeds, st =>
    match foldEntries (fun rel child st1 =>
        fetchAndEmbedLink env opts f ref rel child st1)
        (reqEntries embeds) st with
    | .error e => .error e
    | .ok st1 => .ok (ref, st1)

def fetchAndEmbedLink (env : Env) (opts : Opts) :
    Nat → Ref → String → ReqChild → St → Except Err (Option Ref × St)
  | 0, _, _, _, _ => .error .fuelOut
  | f + 1, ref, rel, embeds, st =>
    match heapGet st.heap ref with
    | none => .error .typeError
    | some o =>
      match linkHrefE (fun u _ => u) st.heap o rel none with
      | .error e => .error e
      | .ok none => .ok (none, st)
      | .ok (some (.one h)) =>
        if h = "" then .ok (none, st)
        else
          match fetchHalJson env opts f h embeds st with
          | .error e => .error e
          | .ok (r, st1) =>
            match heapGet st1.heap ref with
            | none => .error .typeError
            | some o1 =>
              .ok (some ref,
                ⟨heapSet st1.heap ref
                    ⟨o1.linksPresent, o1.links, o1.embPresent,
                      aset o1.embedded rel (.one r)⟩,
                  st1.ctx, st1.log⟩)
      | .ok (some (.many hs)) =>
        match foldHrefs (fun h st1 => fetchHalJson env opts f h embeds st1) hs st with
        | .error e => .error e
        | .ok (rs, st1) =>
          match heapGet st1.heap ref with
          | none => .error .typeError
          | some o1 =>
            .ok (some ref,
              ⟨heapSet st1.heap ref
                  ⟨o1.linksPresent, o1.links, o1.embPresent,
                    aset o1.embedded rel (.many rs)⟩,
                st1.ctx, st1.log⟩)
end

/- Fuel sufficient for a fetchAndEmbedLinks call on a request child: one
step for the call itself, plus, for every entry, one step for its
fetchAndEmbedLink, one for each nested fetchHalJson, and recursively the
fuel of the nested fetchAndEmbedLinks.  This is a function of the embed
request alone; the link graph served by the environment plays no part. -/
mutual
def fuelL : ReqChild → Nat
  | .null => 1
  | .node q => 1 + fuelReq q

def fuelReq : EmbedReq → Nat
  | .mk es => fuelEnts es

def fuelEnts : ReqEntries → Nat
  | .nil => 0
  | .cons _ child rest => max (2 + fuelL child) (fuelEnts rest)
end

/-- Fuel sufficient for a fetchHalJson call on a request child. -/
def fuelJ (c : ReqChild) : Nat := 1 + fuelL c

/- The nesting depth of an embed request: null has depth zero, an object
one more than the maximal depth of its children.  This is the depth bound
of the specification. -/
mutual
def depthJ : ReqChild → Nat
  | .null => 0
  | .node q => depthReq q

def depthReq : EmbedReq → Nat
  | .mk es => 1 + depthEnts es

def depthEnts : ReqEntries → Nat
  | .nil => 0
  | .cons _ child rest => max (depthJ child) (depthEnts rest)
end

/-- The effective embed request of a halJson call: the source defaults a
falsy embeds argument to the embeds property of the options object. -/
def effReq (opts : Opts) (embeds : ReqChild) : ReqChild :=
  match embeds with
  | .null => opts.embeds
  | .node q => .node q

/-- Source halJson applied to an already-decoded root document: default a
falsy embeds argument to the embeds property of the options, register the
root document into a fresh context, then embed.  The returned reference is
the root resource, mutated in place.  The interpreter runs on the fuel
budget derived from the embed request alone. -/
def halJson (env : Env) (opts : Opts) (embeds : ReqChild) (w : HalWire) :
    Except Err (Ref × St) :=
  match allocWire w [] with
  | none => .error .typeError
  | some (ref, heap1, regs) =>
    fetchAndEmbedLinks env opts (fuelL (effReq opts embeds)) ref
      (effReq opts embeds) ⟨heap1, applyRegs regs [], []⟩

/-- A well-formed transport environment: every document it serves carries
a self link whose href is the URI it was requested under. -/
def WfEnv (env : Env) : Prop :=
  ∀ o u w, env o u = some w → wireSelf w = some u

/-- A well-formed heap object relative to a heap size: both reserved maps
are present, a registration key exists (the links map holds a self entry,
single or array), and all embedded references are live. -/
def GoodObj (o : HalObj) (n : Nat) : Prop :=
  o.linksPresent = true ∧ o.embPresent = true ∧ (selfKey o).isSome = true ∧
  ∀ rel v, alookup o.embedded rel = some v → ∀ r ∈ oomRefs v, r < n

/-- Every cell of the heap is a well-formed object. -/
def GoodHeap (h : Heap) : Prop := ∀ i o, heapGet h i = some o → GoodObj o h.length

/-- What every allocation step guarantees: the heap is only appended to,
every returned registration points at a live cell whose registration key
is the registered key, and heap well-formedness is preserved. -/
def AllocCore (heap heap' : Heap) (regs : List (String × Ref)) : Prop :=
  (∃ ext, heap' = heap ++ ext) ∧
  (∀ p ∈ regs, p.2 < heap'.length ∧ selfKeyAt heap' p.2 = some p.1) ∧
  (GoodHeap heap → GoodHeap heap')

/-- Every context entry points into the heap. -/
def CtxValid (st : St) : Prop :=
  ∀ u r, alookup st.ctx u = some r → r < st.heap.length

/-- The run invariant: the transport log has no duplicates, every logged
URI owns a context slot, the heap is well formed and the context valid. -/
def Pre (st : St) : Prop :=
  st.log.Nodup ∧ (∀ u ∈ st.log, (alookup st.ctx u).isSome) ∧
  GoodHeap st.heap ∧ CtxValid st

/-- The identity invariant of the request context: the slot of a URI only
ever holds a resource whose registration key is that URI (for every
resource with a single self link the key is its self href; an array-self
resource occupies the slot of the coerced key "undefined"). -/
def SelfInv (st : St) : Prop :=
  ∀ u r, alookup st.ctx u = some r → selfKeyAt st.heap r = some u

/-- Existing objects survive a step: same links map and flags, and the
embedded map only gains keys (entries are assigned, never removed). -/
def ObjPres (st st' : St) : Prop :=
  ∀ i o, heapGet st.heap i = some o → ∃ o', heapGet st'.heap i = some o' ∧
    o'.linksPresent = o.linksPresent ∧ o'.links = o.links ∧
    o'.embPresent = o.embPresent ∧
    ∀ rel, (alookup o.embedded rel).isSome → (alookup o'.embedded rel).isSome

/-- Everything one interpreter step guarantees, on a state satisfying the
run invariant: the heap only grows, existing objects persist, context
slots are never deleted, the run invariant holds afterwards, and (for a
well-formed environment) the context identity invariant is preserved. -/
def StepOK (env : Env) (st st' : St) : Prop :=
  st.heap.length ≤ st'.heap.length ∧
  ObjPres st st' ∧
  (∀ u, (alookup st.ctx u).isSome → (alookup st'.ctx u).isSome) ∧
  Pre st' ∧
  (WfEnv env → SelfInv st → SelfInv st')

/-- A relation is resolvable from the links map of an object: a single
link with a truthy href, or an array of links (an array is never skipped
by the source, not even an empty one). -/
def LinksResolvable (o : HalObj) (rel : String) : Prop :=
  match alookup o.links rel with
  | some (.one l) => l.href ≠ ""
  | some (.many _) => True
  | none => False

/- Extractors used to state concrete runs: the root reference, context,
log, embedded map and self href of a finished run. -/

/-- The final state of a successful run (a junk empty state otherwise). -/
def stOf (res : Except Err (Ref × St)) : St :=
  match res with
  | .ok (_, st) => st
  | .error _ => ⟨[], [], []⟩

/-- The root reference of a successful run. -/
def rootOf (res : Except Err (Ref × St)) : Option Nat :=
  match res with
  | .ok (r, _) => some r
  | .error _ => none

/-- The context of a successful run. -/
def ctxOf (res : Except Err (Ref × St)) : Option (List (String × Nat)) :=
  match res with
  | .ok (_, st) => some st.ctx
  | .error _ => none

/-- The transport log of a successful run. -/
def logOf (res : Except Err (Ref × St)) : Option (List String) :=
  match res with
  | .ok (_, st) => some st.log
  | .error _ => none

/-- The embedded map (relation names and reference lists) of the object at
a given reference after a successful run. -/
def embOf (res : Except Err (Ref × St)) (r : Ref) : Option (List (String × List Nat)) :=
  match res with
  | .ok (_, st) =>
    match heapGet st.heap r with
    | some o => some (o.embedded.map (fun p => (p.1, oomRefs p.2)))
    | none => none
  | .error _ => none

/-- The self href of the object at a reference after a successful run. -/
def selfOf (res : Except Err (Ref × St)) (r : Ref) : Option String :=
  match res with
  | .ok (_, st) => selfAt st.heap r
  | .error _ => none

/- Concrete scenarios used by the counterexamples and witnesses. -/

/-- A plain (non-templated) link. -/
def lnk (s : String) : Link := Link.mk s false

/-- A wire document with both reserved maps present. -/
def mkw (ls : List (String × OneOrMany Link)) (es : WireEntries) : HalWire :=
  HalWire.mk true ls true es

/-- The embed request asking for relation r with no nested embeds. -/
def reqR : ReqChild := .node (.mk (.cons "r" .null .nil))

/-- An environment that serves nothing (transport always fails). -/
def envNone : Env := fun _ _ => none

/-- Root of the C3 scenario: self a, link r to l, and a pre-existing
embedded resource (self e) under the same relation r. -/
def rootC3 : HalWire :=
  mkw [("self", .one (lnk "a")), ("r", .one (lnk "l"))]
      (.cons "r" (.one (mkw [("self", .one (lnk "e"))] .nil)) .nil)

/-- Environment of the C3 scenario: serves the document l only. -/
def envC3 : Env := fun _ u =>
  if u = "l" then some (mkw [("self", .one (lnk "l"))] .nil) else none

/-- The C3 run: embed relation r on a resource that both links r to l and
already embeds a different resource (self e) under r. -/
def runC3 : Except Err (Ref × St) := halJson envC3 ⟨.null⟩ reqR rootC3

/-- Root of the C8 scenario: self a with the self-cycle link r to a. -/
def rootC8 : HalWire :=
  mkw [("self", .one (lnk "a")), ("r", .one (lnk "a"))] .nil

/-- The C8 run: depth-1 embed request on the self-cycle. -/
def runC8 : Except Err (Ref × St) := halJson envNone ⟨.null⟩ reqR rootC8

/-- Document b of the C1 scenario: links x to the URI x and pre-embeds its
own copy of the resource with self href x. -/
def docB : HalWire :=
  mkw [("self", .one (lnk "b")), ("x", .one (lnk "x"))]
      (.cons "x" (.one (mkw [("self", .one (lnk "x"))] .nil)) .nil)

/-- Document c of the C1 scenario: same shape as document b, with its own
copy (a distinct instance) of the resource with self href x. -/
def docC : HalWire :=
  mkw [("self", .one (lnk "c")), ("x", .one (lnk "x"))]
      (.cons "x" (.one (mkw [("self", .one (lnk "x"))] .nil)) .nil)

/-- Root of the C1 scenario: links r1 to b and r2 to c. -/
def rootC1 : HalWire :=
  mkw [("self", .one (lnk "a")), ("r1", .one (lnk "b")), ("r2", .one (lnk "c"))] .nil

/-- Environment of the C1 scenario. -/
def envC1 : Env := fun _ u =>
  if u = "b" then some docB else if u = "c" then some docC else none

/-- Embed request asking for relation x with no nested embeds. -/
def reqX : ReqChild := .node (.mk (.cons "x" .null .nil))

/-- The C1 embed request: r1 and r2, each with a nested x. -/
def reqC1 : ReqChild := .node (.mk (.cons "r1" reqX (.cons "r2" reqX .nil)))

/-- The C1 run: the URI x is referenced below both r1 and r2. -/
def runC1 : Except Err (Ref × St) := halJson envC1 ⟨.null⟩ reqC1 rootC1

/-- Root of the C4 scenario: two distinct embedded resources under one
relation, both carrying the same self href x. -/
def rootC4 : HalWire :=
  mkw [("self", .one (lnk "a"))]
      (.cons "k"
        (.many (.cons (mkw [("self", .one (lnk "x")), ("p", .one (lnk "q"))] .nil)
          (.cons (mkw [("self", .one (lnk "x"))] .nil) .nil))) .nil)

/-- The C4 run: registration of two resources with the same self href. -/
def runC4 : Except Err (Ref × St) := halJson envNone ⟨.null⟩ .null rootC4

/-- Root of the C5 counterexample: a wire document without a links map. -/
def rootC5 : HalWire := HalWire.mk false [] true .nil

/-- The C5 run: processing a document whose links map is absent. -/
def runC5 : Except Err (Ref × St) := halJson envNone ⟨.null⟩ .null rootC5

/-- Root of the witness scenario: self a with link r to b. -/
def rootW : HalWire := mkw [("self", .one (lnk "a")), ("r", .one (lnk "b"))] .nil

/-- Environment of the witness scenario: serves document b. -/
def envW : Env := fun _ u =>
  if u = "b" then some (mkw [("self", .one (lnk "b"))] .nil) else none

/-- The witness run: embeds r (the document b) into the root. -/
def runW : Except Err (Ref × St) := halJson envW ⟨.null⟩ reqR rootW

/-- Options object carrying the embed request for relation r, for the C10
witness of defaulting to the embeds property of the options. -/
def optsE : Opts := ⟨reqR⟩

/-- Object of the C6 counterexample: one non-templated link under t whose
href is a plain URI. -/
def objC6 : HalObj := ⟨true, [("t", .one (Link.mk "u" false))], true, []⟩

/-- An expand collaborator that witnesses its own invocation by returning
a fixed marker string. -/
def expMark : String → Params → String := fun _ _ => "EXP"

/-- Object of the C7 witness: a link under r1, a link array under r2, an
embedded resource under e1 and nothing under m. -/
def objC7 : HalObj :=
  ⟨true, [("self", .one (lnk "s")), ("r1", .one (lnk "u1")),
          ("r2", .many [lnk "u2", lnk "u3"])], true, [("e1", .one 0)]⟩

/-- Heap of the C7 witness: cell 0 is an object with self href v. -/
def heapC7 : Heap := [⟨true, [("self", .one (lnk "v"))], true, []⟩]

/-- The keys of the links map of the object at a reference after a run. -/
def linksKeysOf (res : Except Err (Ref × St)) (r : Ref) : Option (List String) :=
  match res with
  | .ok (_, st) =>
    match heapGet st.heap r with
    | some o => some (o.links.map (fun p => p.1))
    | none => none
  | .error _ => none

/-- A fetchHalJson run of the witness scenario directly on the URI b with
an empty state. -/
def runJb : Except Err (Ref × St) :=
  fetchHalJson envW ⟨.null⟩ 5 "b" ReqChild.null ⟨[], [], []⟩

/-- A lone registered object with self href a. -/
def objA0 : HalObj := ⟨true, [("self", .one (lnk "a"))], true, []⟩

/-- A small state whose context already holds the URI a. -/
def stW0 : St := ⟨[objA0], [("a", 0)], []⟩

/-- The root object of the witness run after embedding: the document b was
assigned into the embedded map under r. -/
def objAW : HalObj :=
  ⟨true, [("self", .one (lnk "a")), ("r", .one (lnk "b"))], true, [("r", .one 1)]⟩

/-- The root object of the witness scenario as allocated, before any
embedding. -/
def objAW0 : HalObj :=
  ⟨true, [("self", .one (lnk "a")), ("r", .one (lnk "b"))], true, []⟩

/-- Object of the C3 witness: relation r present both as a link (to l) and
as a pre-existing embedded resource (reference 0). -/
def objC3w : HalObj := ⟨true, [("r", .one (lnk "l"))], true, [("r", .one 0)]⟩

/-- Heap of the C3 witness: cell 0 is an object with self href e. -/
def heapC3w : Heap := [⟨true, [("self", .one (lnk "e"))], true, []⟩]

/-- The object served under b in the witness scenario, as allocated. -/
def objB1 : HalObj := ⟨true, [("self", .one (lnk "b"))], true, []⟩

/-- The final state of the witness run: the root (cell 0) embeds the
fetched document b (cell 1) under r, both URIs hold context slots, and b
was fetched once. -/
def stWend : St := ⟨[objAW, objB1], [("a", 0), ("b", 1)], ["b"]⟩

/-- The root object of the C8 run after embedding: the self-cycle relation
r was resolved to the root itself (reference 0). -/
def objC8end : HalObj :=
  ⟨true, [("self", .one (lnk "a")), ("r", .one (lnk "a"))], true, [("r", .one 0)]⟩

/-- The final state of the C8 run: one heap cell, one context slot, no
transport invocation. -/
def stC8end : St := ⟨[objC8end], [("a", 0)], []⟩

/-- The context registrations produced by allocating a wire document into
an empty heap, in the order addToContext performs the writes. -/
def allocRegs (w : HalWire) : Option (List (String × Ref)) :=
  match allocWire w [] with
  | some (_, _, regs) => some regs
  | none => none

/-- Root of the array-self scenario: a document whose self entry is an
array of links (legal on the wire; its href expression yields undefined
without throwing). -/
def rootU : HalWire :=
  HalWire.mk true [("self", .many [lnk "u1", lnk "u2"])] true .nil

/-- The array-self root as allocated. -/
def objU : HalObj := ⟨true, [("self", .many [lnk "u1", lnk "u2"])], true, []⟩

/-- The final state of the array-self run: the document was registered
under the coerced property key "undefined" and the call succeeded. -/
def stUend : St := ⟨[objU], [("undefined", 0)], []⟩

/-- The array-self run: processing a document whose self entry is an
array, with an empty embed request. -/
def runU : Except Err (Ref × St) := halJson envNone ⟨.null⟩ .null rootU

/- Fuel bounds versus request depth: the interpreter needs at most three
steps per nesting level.  Proofs by structural recursion over the request
family. -/

mutual
def fuelL_le_depth : (c : ReqChild) → fuelL c ≤ 3 * depthJ c + 1
  | .null => by simp [fuelL, depthJ]
  | .node q => by
      have h := fuelReq_le_depth q
      simp only [fuelL, depthJ]
      omega

def fuelReq_le_depth : (q : EmbedReq) → fuelReq q ≤ 3 * depthReq q
  | .mk es => by
      have h := fuelEnts_le_depth es
      simp only [fuelReq, depthReq]
      omega

def fuelEnts_le_depth : (es : ReqEntries) → fuelEnts es ≤ 3 * depthEnts es + 3
  | .nil => by simp [fuelEnts, depthEnts]
  | .cons rel c rest => by
      have h1 := fuelL_le_depth c
      have h2 := fuelEnts_le_depth rest
      simp only [fuelEnts, depthEnts]
      omega
end

theorem alookup_aset {α : Type} (m : List (String × α)) (k k' : String) (v : α) :
    alookup (aset m k v) k' = if k = k' then some v else alookup m k' := by
  induction m with
  | nil => simp [aset, alookup]
  | cons p rest ih =>
    obtain ⟨pk, pv⟩ := p
    simp only [aset]
    split_ifs with h1 <;> simp only [alookup] <;> split_ifs <;> simp_all [alookup]

theorem alookup_aset_isSome {α : Type} {m : List (String × α)} {k' : String}
    (k : String) (v : α) (h : (alookup m k').isSome = true) :
    (alookup (aset m k v) k').isSome = true := by
  rw [alookup_aset]
  split_ifs <;> simp_all

theorem alookup_aset_inv {α : Type} {m : List (String × α)} {k k' : String}
    {v r : α} (h : alookup (aset m k v) k' = some r) :
    (k = k' ∧ r = v) ∨ alookup m k' = some r := by
  rw [alookup_aset] at h
  split_ifs at h with h1
  · exact Or.inl ⟨h1, (Option.some_inj.mp h).symm⟩
  · exact Or.inr h

theorem applyRegs_nil (ctx : List (String × Ref)) : applyRegs [] ctx = ctx := rfl

theorem applyRegs_cons (p : String × Ref) (regs : List (String × Ref))
    (ctx : List (String × Ref)) :
    applyRegs (p :: regs) ctx = applyRegs regs (aset ctx p.1 p.2) := rfl

theorem applyRegs_isSome {regs : List (String × Ref)} :
    ∀ {ctx : List (String × Ref)} {u : String},
    (alookup ctx u).isSome = true → (alookup (applyRegs regs ctx) u).isSome = true := by
  induction regs with
  | nil => intro ctx u h; simpa [applyRegs] using h
  | cons p rest ih =>
    intro ctx u h
    rw [applyRegs_cons]
    exact ih (alookup_aset_isSome p.1 p.2 h)

theorem applyRegs_inv {regs : List (String × Ref)} :
    ∀ {ctx : List (String × Ref)} {u : String} {r : Ref},
    alookup (applyRegs regs ctx) u = some r →
    (u, r) ∈ regs ∨ alookup ctx u = some r := by
  induction regs with
  | nil => intro ctx u r h; exact Or.inr h
  | cons p rest ih =>
    intro ctx u r h
    rw [applyRegs_cons] at h
    rcases ih h with hmem | hset
    · exact Or.inl (List.mem_cons_of_mem _ hmem)
    · rcases alookup_aset_inv hset with ⟨hk, hv⟩ | hold
      · left
        subst hk hv
        exact List.mem_cons_self _ _
      · exact Or.inr hold

theorem heapGet_some_lt {h : Heap} : ∀ {i : Nat} {o : HalObj},
    heapGet h i = some o → i < h.length := by
  induction h with
  | nil => intro i o hg; simp [heapGet] at hg
  | cons a rest ih =>
    intro i o hg
    cases i with
    | zero => simp
    | succ j =>
      simp only [heapGet, List.get?] at hg
      exact Nat.succ_lt_succ (ih hg)

theorem heapGet_append_lt {h : Heap} (e : Heap) : ∀ {i : Nat}, i < h.length →
    heapGet (h ++ e) i = heapGet h i := by
  induction h with
  | nil => intro i hi; simp at hi
  | cons a rest ih =>
    intro i hi
    cases i with
    | zero => simp [heapGet]
    | succ j =>
      simp only [List.cons_append, heapGet, List.get?]
      exact ih (Nat.lt_of_succ_lt_succ hi)

theorem heapGet_append_self (h : Heap) (o : HalObj) :
    heapGet (h ++ [o]) h.length = some o := by
  induction h with
  | nil => rfl
  | cons a rest ih =>
    simp only [List.cons_append, List.length_cons, heapGet, List.get?]
    exact ih

theorem length_heapSet (h : Heap) (r : Ref) (o : HalObj) :
    (heapSet h r o).length = h.length := by
  simp [heapSet]

theorem heapGet_heapSet_self {h : Heap} {r : Ref} (o : HalObj) (hr : r < h.length) :
    heapGet (heapSet h r o) r = some o := by
  induction h generalizing r with
  | nil => simp at hr
  | cons a rest ih =>
    cases r with
    | zero => rfl
    | succ j =>
      simp only [heapSet, List.set, heapGet, List.get?]
      exact ih (Nat.lt_of_succ_lt_succ hr)

theorem heapGet_heapSet_ne {h : Heap} {r i : Ref} (o : HalObj) (hne : i ≠ r) :
    heapGet (heapSet h r o) i = heapGet h i := by
  induction h generalizing r i with
  | nil => simp [heapSet]
  | cons a rest ih =>
    cases r with
    | zero =>
      cases i with
      | zero => exact absurd rfl hne
      | succ j => rfl
    | succ m =>
      cases i with
      | zero => rfl
      | succ j =>
        simp only [heapSet, List.set, heapGet, List.get?]
        exact ih (fun hc => hne (by rw [hc]))

theorem selfAt_some_lt {h : Heap} {r : Ref} {s : String}
    (hs : selfAt h r = some s) : r < h.length := by
  unfold selfAt at hs
  cases hg : heapGet h r with
  | none => rw [hg] at hs; simp at hs
  | some o => exact heapGet_some_lt hg

theorem selfAt_append_lt {h : Heap} (e : Heap) {r : Ref} (hr : r < h.length) :
    selfAt (h ++ e) r = selfAt h r := by
  unfold selfAt
  rw [heapGet_append_lt e hr]

theorem selfAt_heapSet {h : Heap} {ref : Ref} {o1 o' : HalObj}
    (hg : heapGet h ref = some o1) (hself : selfLink o' = selfLink o1) :
    ∀ i, selfAt (heapSet h ref o') i = selfAt h i := by
  intro i
  by_cases hi : i = ref
  · subst hi
    unfold selfAt
    rw [heapGet_heapSet_self o' (heapGet_some_lt hg), hg]
    simpa using hself
  · unfold selfAt
    rw [heapGet_heapSet_ne o' hi]

theorem selfKeyAt_some_lt {h : Heap} {r : Ref} {s : String}
    (hs : selfKeyAt h r = some s) : r < h.length := by
  unfold selfKeyAt at hs
  cases hg : heapGet h r with
  | none => rw [hg] at hs; simp at hs
  | some o => exact heapGet_some_lt hg

theorem selfKeyAt_append_lt {h : Heap} (e : Heap) {r : Ref} (hr : r < h.length) :
    selfKeyAt (h ++ e) r = selfKeyAt h r := by
  unfold selfKeyAt
  rw [heapGet_append_lt e hr]

theorem selfKeyAt_heapSet {h : Heap} {ref : Ref} {o1 o' : HalObj}
    (hg : heapGet h ref = some o1) (hself : selfKey o' = selfKey o1) :
    ∀ i, selfKeyAt (heapSet h ref o') i = selfKeyAt h i := by
  intro i
  by_cases hi : i = ref
  · subst hi
    unfold selfKeyAt
    rw [heapGet_heapSet_self o' (heapGet_some_lt hg), hg]
    simpa using hself
  · unfold selfKeyAt
    rw [heapGet_heapSet_ne o' hi]

/-- A single self link supplies the registration key unchanged. -/
theorem selfKey_of_selfLink {o : HalObj} {s : String}
    (hs : selfLink o = some s) : selfKey o = some s := by
  unfold selfLink at hs
  unfold selfKey
  cases hlp : o.linksPresent with
  | false => rw [hlp] at hs; simp at hs
  | true =>
    rw [hlp] at hs
    rw [if_pos rfl] at hs ⊢
    cases hl : alookup o.links "self" with
    | none => rw [hl] at hs; simp at hs
    | some v =>
      cases v with
      | one l => rw [hl] at hs; exact hs
      | many ls => rw [hl] at hs; simp at hs

/-- A registration key other than the coerced "undefined" can only come
from a single self link with that href. -/
theorem selfLink_of_selfKey {o : HalObj} {s : String}
    (hs : selfKey o = some s) (hne : s ≠ "undefined") :
    selfLink o = some s := by
  unfold selfKey at hs
  unfold selfLink
  cases hlp : o.linksPresent with
  | false => rw [hlp] at hs; simp at hs
  | true =>
    rw [hlp] at hs
    rw [if_pos rfl] at hs ⊢
    cases hl : alookup o.links "self" with
    | none => rw [hl] at hs; simp at hs
    | some v =>
      cases v with
      | one l => rw [hl] at hs; exact hs
      | many ls =>
        rw [hl] at hs
        have hu : ("undefined" : String) = s := Option.some_inj.mp hs
        exact absurd hu.symm hne

/-- A single self link supplies the value of the self-href expression. -/
theorem selfHrefAt_of_selfAt {h : Heap} {r : Ref} {s : String}
    (hs : selfAt h r = some s) : selfHrefAt h r = .ok (some s) := by
  unfold selfAt at hs
  unfold selfHrefAt
  cases hg : heapGet h r with
  | none => rw [hg] at hs; simp at hs
  | some o =>
    rw [hg] at hs
    dsimp only at hs ⊢
    unfold selfLink at hs
    cases hlp : o.linksPresent with
    | false => rw [hlp] at hs; simp at hs
    | true =>
      rw [hlp] at hs
      rw [if_pos rfl] at hs ⊢
      cases hl : alookup o.links "self" with
      | none => rw [hl] at hs; simp at hs
      | some v =>
        cases v with
        | one l =>
          rw [hl] at hs
          dsimp only at hs ⊢
          rw [Option.some_inj.mp hs]
        | many ls => rw [hl] at hs; simp at hs

theorem selfAt_selfKeyAt {h : Heap} {r : Ref} {s : String}
    (hs : selfAt h r = some s) : selfKeyAt h r = some s := by
  unfold selfAt at hs
  unfold selfKeyAt
  cases hg : heapGet h r with
  | none => rw [hg] at hs; simp at hs
  | some o =>
    rw [hg] at hs
    exact selfKey_of_selfLink hs

theorem selfKeyAt_single {h : Heap} {r : Ref} {s : String}
    (hs : selfKeyAt h r = some s) (hne : s ≠ "undefined") :
    selfAt h r = some s := by
  unfold selfKeyAt at hs
  unfold selfAt
  cases hg : heapGet h r with
  | none => rw [hg] at hs; simp at hs
  | some o =>
    rw [hg] at hs
    exact selfLink_of_selfKey hs hne

/-- A single self link at wire level supplies the wire registration key
unchanged. -/
theorem wireSelf_key {w : HalWire} {u : String}
    (hw : wireSelf w = some u) : wireSelfKey w = some u := by
  cases w with
  | mk lp links ep emb =>
    unfold wireSelf at hw
    unfold wireSelfKey
    dsimp only at hw ⊢
    cases hlp : lp with
    | false => rw [hlp] at hw; simp at hw
    | true =>
      rw [hlp] at hw
      rw [if_pos rfl] at hw ⊢
      cases hl : alookup links "self" with
      | none => rw [hl] at hw; simp at hw
      | some v =>
        cases v with
        | one l => rw [hl] at hw; exact hw
        | many ls => rw [hl] at hw; simp at hw

/-- A list of single self links supplies the same hrefs through the
registration-key reading. -/
theorem mapM_selfAt_key {h : Heap} : ∀ (rs : List Ref) {ss : List String},
    (rs.mapM (fun r => selfAt h r) : Option (List String)) = some ss →
    (rs.mapM (fun r => selfKeyAt h r) : Option (List String)) = some ss := by
  intro rs
  induction rs with
  | nil =>
    intro ss hs
    simpa using hs
  | cons a as ih =>
    intro ss hs
    rw [List.mapM_cons] at hs ⊢
    cases ha : selfAt h a with
    | none => rw [ha] at hs; simp at hs
    | some s0 =>
      rw [ha] at hs
      cases har : (as.mapM (fun r => selfAt h r) : Option (List String)) with
      | none =>
        rw [har] at hs
        simp at hs
      | some ss0 =>
        rw [har] at hs
        rw [selfAt_selfKeyAt ha, ih har]
        exact hs

theorem stepOK_refl (env : Env) {st : St} (hpre : Pre st) : StepOK env st st := by
  refine ⟨Nat.le_refl _, ?_, fun u h => h, hpre, fun _ h => h⟩
  intro i o hg
  exact ⟨o, hg, rfl, rfl, rfl, fun rel h => h⟩

theorem objPres_trans {st1 st2 st3 : St} (h1 : ObjPres st1 st2)
    (h2 : ObjPres st2 st3) : ObjPres st1 st3 := by
  intro i o hg
  obtain ⟨o2, hg2, hlp2, hl2, hep2, hd2⟩ := h1 i o hg
  obtain ⟨o3, hg3, hlp3, hl3, hep3, hd3⟩ := h2 i o2 hg2
  exact ⟨o3, hg3, hlp3.trans hlp2, hl3.trans hl2, hep3.trans hep2,
    fun rel h => hd3 rel (hd2 rel h)⟩

theorem stepOK_trans {env : Env} {st1 st2 st3 : St} (h1 : StepOK env st1 st2)
    (h2 : StepOK env st2 st3) : StepOK env st1 st3 := by
  obtain ⟨hl1, hp1, hc1, hpre1, hs1⟩ := h1
  obtain ⟨hl2, hp2, hc2, hpre2, hs2⟩ := h2
  refine ⟨hl1.trans hl2, objPres_trans hp1 hp2, fun u h => hc2 u (hc1 u h),
    hpre2, fun hw h => hs2 hw (hs1 hw h)⟩

theorem reqEntries_ind (P : ReqEntries → Prop) (hnil : P .nil)
    (hcons : ∀ r c rest, P rest → P (.cons r c rest)) : ∀ es, P es := by
  have key : ∀ n es, entLen es ≤ n → P es := by
    intro n
    induction n with
    | zero =>
      intro es hle
      cases es with
      | nil => exact hnil
      | cons r c rest => simp [entLen] at hle
    | succ n ih =>
      intro es hle
      cases es with
      | nil => exact hnil
      | cons r c rest =>
        refine hcons r c rest (ih rest ?_)
        simp only [entLen] at hle
        omega
  intro es
  exact key (entLen es) es (Nat.le_refl _)

theorem entIn_fuelEnts : ∀ (es : ReqEntries), ∀ {rel : String} {c : ReqChild},
    EntIn rel c es → 2 + fuelL c ≤ fuelEnts es := by
  intro es
  induction es using reqEntries_ind with
  | hnil => intro rel c h; exact absurd h (by simp [EntIn])
  | hcons r c0 rest ih =>
    intro rel c h
    rcases h with ⟨_, hc⟩ | h
    · subst hc
      simp only [fuelEnts]
      omega
    · have := ih h
      simp only [fuelEnts]
      omega

theorem foldEntries_congr {step1 step2 : String → ReqChild → St → Except Err (Option Ref × St)} :
    ∀ (es : ReqEntries), ∀ (st : St),
    (∀ rel c st0, EntIn rel c es → step1 rel c st0 = step2 rel c st0) →
    foldEntries step1 es st = foldEntries step2 es st := by
  intro es
  induction es using reqEntries_ind with
  | hnil => intro st _; rfl
  | hcons r c rest ih =>
    intro st hsame
    simp only [foldEntries]
    rw [hsame r c st (Or.inl ⟨rfl, rfl⟩)]
    cases step2 r c st with
    | error e => rfl
    | ok p =>
      obtain ⟨o1, st1⟩ := p
      dsimp only
      exact ih st1 (fun rel c0 st0 hin => hsame rel c0 st0 (Or.inr hin))

theorem foldEntries_ne_fuelOut {step : String → ReqChild → St → Except Err (Option Ref × St)} :
    ∀ (es : ReqEntries), ∀ (st : St),
    (∀ rel c st0, EntIn rel c es → step rel c st0 ≠ .error .fuelOut) →
    foldEntries step es st ≠ .error .fuelOut := by
  intro es
  induction es using reqEntries_ind with
  | hnil => intro st _ h; simp [foldEntries] at h
  | hcons r c rest ih =>
    intro st hstep
    simp only [foldEntries]
    cases hs : step r c st with
    | error e =>
      dsimp only
      intro hcon
      rw [Except.error.injEq] at hcon
      exact hstep r c st (Or.inl ⟨rfl, rfl⟩) (hcon ▸ hs)
    | ok p =>
      obtain ⟨o1, st1⟩ := p
      dsimp only
      exact ih st1 (fun rel c0 st0 hin => hstep rel c0 st0 (Or.inr hin))

theorem foldEntries_stepOK {env : Env}
    {step : String → ReqChild → St → Except Err (Option Ref × St)} :
    ∀ (es : ReqEntries), ∀ (st st' : St),
    (∀ rel c st0 o st1, EntIn rel c es → Pre st0 → step rel c st0 = .ok (o, st1) →
      StepOK env st0 st1) →
    Pre st → foldEntries step es st = .ok st' → StepOK env st st' := by
  intro es
  induction es using reqEntries_ind with
  | hnil =>
    intro st st' _ hpre h
    simp only [foldEntries, Except.ok.injEq] at h
    subst h
    exact stepOK_refl env hpre
  | hcons r c rest ih =>
    intro st st' hstep hpre h
    simp only [foldEntries] at h
    cases hs : step r c st with
    | error e => rw [hs] at h; exact absurd h (by simp)
    | ok p =>
      obtain ⟨o1, st1⟩ := p
      rw [hs] at h
      dsimp only at h
      have h1 := hstep r c st o1 st1 (Or.inl ⟨rfl, rfl⟩) hpre hs
      have h2 := ih st1 st'
        (fun rel c0 st0 o st2 hin => hstep rel c0 st0 o st2 (Or.inr hin))
        h1.2.2.2.1 h
      exact stepOK_trans h1 h2

theorem foldEntries_error {step : String → ReqChild → St → Except Err (Option Ref × St)} :
    ∀ (pre : ReqEntries), ∀ {rel : String} {c : ReqChild} (suf : ReqEntries)
      {st stM : St} {e1 : Err},
    foldEntries step pre st = .ok stM → step rel c stM = .error e1 →
    foldEntries step (entApp pre (.cons rel c suf)) st = .error e1 := by
  intro pre
  induction pre using reqEntries_ind with
  | hnil =>
    intro rel c suf st stM e1 hpre hstep
    simp only [foldEntries, Except.ok.injEq] at hpre
    subst hpre
    simp only [entApp, foldEntries, hstep]
  | hcons r0 c0 rest ih =>
    intro rel c suf st stM e1 hpre hstep
    simp only [foldEntries] at hpre
    cases hs : step r0 c0 st with
    | error e => rw [hs] at hpre; exact absurd hpre (by simp)
    | ok p =>
      obtain ⟨o1, st1⟩ := p
      rw [hs] at hpre
      dsimp only at hpre
      simp only [entApp, foldEntries, hs]
      exact ih suf hpre hstep

theorem foldHrefs_congr {step1 step2 : String → St → Except Err (Ref × St)} :
    ∀ (hs : List String) (st : St),
    (∀ h st0, step1 h st0 = step2 h st0) →
    foldHrefs step1 hs st = foldHrefs step2 hs st := by
  intro hs
  induction hs with
  | nil => intro st _; rfl
  | cons h rest ih =>
    intro st hsame
    simp only [foldHrefs]
    rw [hsame h st]
    cases step2 h st with
    | error e => rfl
    | ok p =>
      obtain ⟨r1, st1⟩ := p
      dsimp only
      rw [ih st1 hsame]

theorem foldHrefs_ne_fuelOut {step : String → St → Except Err (Ref × St)} :
    ∀ (hs : List String) (st : St),
    (∀ h st0, step h st0 ≠ .error .fuelOut) →
    foldHrefs step hs st ≠ .error .fuelOut := by
  intro hs
  induction hs with
  | nil => intro st _ h; simp [foldHrefs] at h
  | cons h rest ih =>
    intro st hstep
    simp only [foldHrefs]
    cases hsv : step h st with
    | error e =>
      dsimp only
      intro hcon
      rw [Except.error.injEq] at hcon
      exact hstep h st (hcon ▸ hsv)
    | ok p =>
      obtain ⟨r1, st1⟩ := p
      dsimp only
      cases hr : foldHrefs step rest st1 with
      | error e =>
        dsimp only
        intro hcon
        rw [Except.error.injEq] at hcon
        exact ih st1 hstep (hcon ▸ hr)
      | ok q =>
        obtain ⟨rs, st2⟩ := q
        dsimp only
        simp

theorem foldHrefs_stepOK {env : Env} {step : String → St → Except Err (Ref × St)} :
    ∀ (hs : List String) (st : St) (rs : List Ref) (st' : St),
    (∀ h st0 r st1, Pre st0 → step h st0 = .ok (r, st1) →
      StepOK env st0 st1 ∧ r < st1.heap.length) →
    Pre st → foldHrefs step hs st = .ok (rs, st') →
    StepOK env st st' ∧ ∀ r ∈ rs, r < st'.heap.length := by
  intro hs
  induction hs with
  | nil =>
    intro st rs st' _ hpre h
    simp only [foldHrefs, Except.ok.injEq, Prod.mk.injEq] at h
    obtain ⟨h1, h2⟩ := h
    subst h1 h2
    exact ⟨stepOK_refl env hpre, fun r hr => absurd hr (by simp)⟩
  | cons h rest ih =>
    intro st rs st' hstep hpre hrun
    simp only [foldHrefs] at hrun
    cases hsv : step h st with
    | error e => rw [hsv] at hrun; exact absurd hrun (by simp)
    | ok p =>
      obtain ⟨r1, st1⟩ := p
      rw [hsv] at hrun
      dsimp only at hrun
      cases hr : foldHrefs step rest st1 with
      | error e => rw [hr] at hrun; exact absurd hrun (by simp)
      | ok q =>
        obtain ⟨rs2, st2⟩ := q
        rw [hr] at hrun
        dsimp only at hrun
        simp only [Except.ok.injEq, Prod.mk.injEq] at hrun
        obtain ⟨h1, h2⟩ := hrun
        subst h1 h2
        obtain ⟨hso1, hv1⟩ := hstep h st r1 st1 hpre hsv
        obtain ⟨hso2, hv2⟩ := ih st1 rs2 st2 hstep hso1.2.2.2.1 hr
        refine ⟨stepOK_trans hso1 hso2, fun r hr2 => ?_⟩
        rcases List.mem_cons.mp hr2 with hhd | htl
        · subst hhd
          exact Nat.lt_of_lt_of_le hv1 hso2.1
        · exact hv2 r htl

theorem wire_ind (P1 : HalWire → Prop) (P2 : WireEntries → Prop)
    (P3 : WireVal → Prop) (P4 : WireList → Prop)
    (hmk : ∀ lp links ep emb, P2 emb → P1 (.mk lp links ep emb))
    (hnil : P2 .nil)
    (hcons : ∀ rel v rest, P3 v → P2 rest → P2 (.cons rel v rest))
    (hone : ∀ w, P1 w → P3 (.one w))
    (hmany : ∀ ws, P4 ws → P3 (.many ws))
    (lnil : P4 .nil)
    (lcons : ∀ w rest, P1 w → P4 rest → P4 (.cons w rest)) :
    (∀ w, P1 w) ∧ (∀ es, P2 es) ∧ (∀ v, P3 v) ∧ (∀ ws, P4 ws) := by
  have key : ∀ n, (∀ w, wireSize w ≤ n → P1 w) ∧ (∀ es, entsSize es ≤ n → P2 es) ∧
      (∀ v, valSize v ≤ n → P3 v) ∧ (∀ ws, listSize ws ≤ n → P4 ws) := by
    intro n
    induction n with
    | zero =>
      refine ⟨fun w h => ?_, fun es h => ?_, fun v h => ?_, fun ws h => ?_⟩
      · cases w; simp [wireSize] at h
      · cases es <;> simp [entsSize] at h
      · cases v <;> simp [valSize] at h
      · cases ws <;> simp [listSize] at h
    | succ n ih =>
      obtain ⟨ih1, ih2, ih3, ih4⟩ := ih
      refine ⟨fun w h => ?_, fun es h => ?_, fun v h => ?_, fun ws h => ?_⟩
      · obtain ⟨lp, links, ep, emb⟩ := w
        simp only [wireSize] at h
        exact hmk lp links ep emb (ih2 emb (by omega))
      · cases es with
        | nil => exact hnil
        | cons rel v rest =>
          simp only [entsSize] at h
          exact hcons rel v rest (ih3 v (by omega)) (ih2 rest (by omega))
      · cases v with
        | one w =>
          simp only [valSize] at h
          exact hone w (ih1 w (by omega))
        | many ws =>
          simp only [valSize] at h
          exact hmany ws (ih4 ws (by omega))
      · cases ws with
        | nil => exact lnil
        | cons w rest =>
          simp only [listSize] at h
          exact lcons w rest (ih1 w (by omega)) (ih4 rest (by omega))
  exact ⟨fun w => (key (wireSize w)).1 w (Nat.le_refl _),
    fun es => (key (entsSize es)).2.1 es (Nat.le_refl _),
    fun v => (key (valSize v)).2.2.1 v (Nat.le_refl _),
    fun ws => (key (listSize ws)).2.2.2 ws (Nat.le_refl _)⟩

theorem goodObj_mono {o : HalObj} {n m : Nat} (h : GoodObj o n) (hnm : n ≤ m) :
    GoodObj o m :=
  ⟨h.1, h.2.1, h.2.2.1,
    fun rel v hv r hr => Nat.lt_of_lt_of_le (h.2.2.2 rel v hv r hr) hnm⟩

theorem heapGet_append_one_cases {h : Heap} {o o2 : HalObj} {i : Nat}
    (hg : heapGet (h ++ [o]) i = some o2) :
    (i < h.length ∧ heapGet h i = some o2) ∨ (i = h.length ∧ o2 = o) := by
  have hlt := heapGet_some_lt hg
  rw [List.length_append, List.length_singleton] at hlt
  by_cases hi : i < h.length
  · rw [heapGet_append_lt [o] hi] at hg
    exact Or.inl ⟨hi, hg⟩
  · have heq : i = h.length := by omega
    subst heq
    rw [heapGet_append_self] at hg
    exact Or.inr ⟨rfl, (Option.some_inj.mp hg).symm⟩

theorem allocCore_refl (heap : Heap) : AllocCore heap heap [] :=
  ⟨⟨[], by simp⟩, fun p hp => absurd hp (by simp), fun h => h⟩

theorem allocCore_trans {h1 h2 h3 : Heap} {regs1 regs2 : List (String × Ref)}
    (a : AllocCore h1 h2 regs1) (b : AllocCore h2 h3 regs2) :
    AllocCore h1 h3 (regs1 ++ regs2) := by
  obtain ⟨⟨e1, he1⟩, ha2, ha3⟩ := a
  obtain ⟨⟨e2, he2⟩, hb2, hb3⟩ := b
  have hlen : h2.length ≤ h3.length := by
    rw [he2, List.length_append]; omega
  refine ⟨⟨e1 ++ e2, by rw [he2, he1, List.append_assoc]⟩, ?_, fun hg => hb3 (ha3 hg)⟩
  intro p hp
  rcases List.mem_append.mp hp with hmem | hmem
  · obtain ⟨hlt, hself⟩ := ha2 p hmem
    refine ⟨Nat.lt_of_lt_of_le hlt hlen, ?_⟩
    rw [he2, selfKeyAt_append_lt e2 hlt]
    exact hself
  · exact hb2 p hmem

theorem alloc_post :
    (∀ w : HalWire, ∀ heap ref heap' regs,
       allocWire w heap = some (ref, heap', regs) →
       AllocCore heap heap' regs ∧ ref < heap'.length ∧
       selfKeyAt heap' ref = wireSelfKey w) ∧
    (∀ es : WireEntries, ∀ heap embRefs heap' regs,
       allocEntries es heap = some (embRefs, heap', regs) →
       AllocCore heap heap' regs ∧
       ∀ rel v, alookup embRefs rel = some v → ∀ r ∈ oomRefs v, r < heap'.length) ∧
    (∀ v : WireVal, ∀ heap oref heap' regs,
       allocVal v heap = some (oref, heap', regs) →
       AllocCore heap heap' regs ∧ ∀ r ∈ oomRefs oref, r < heap'.length) ∧
    (∀ ws : WireList, ∀ heap rs heap' regs,
       allocList ws heap = some (rs, heap', regs) →
       AllocCore heap heap' regs ∧ ∀ r ∈ rs, r < heap'.length) := by
  refine wire_ind _ _ _ _ ?_ ?_ ?_ ?_ ?_ ?_ ?_
  · -- HalWire.mk
    intro lp links ep emb ihe heap ref heap' regs halloc
    simp only [allocWire] at halloc
    cases hae : allocEntries emb heap with
    | none => rw [hae] at halloc; exact absurd halloc (by simp)
    | some trip =>
      obtain ⟨embRefs, heap1, childRegs⟩ := trip
      rw [hae] at halloc
      dsimp only at halloc
      cases hsl : selfKey ⟨lp, links, true, embRefs⟩ with
      | none => rw [hsl] at halloc; exact absurd halloc (by simp)
      | some s =>
        rw [hsl] at halloc
        dsimp only at halloc
        simp only [Option.some_inj, Prod.mk.injEq] at halloc
        obtain ⟨href, hheap, hregs⟩ := halloc
        subst href hheap hregs
        obtain ⟨hcore, hbound⟩ := ihe heap embRefs heap1 childRegs hae
        obtain ⟨⟨ext1, hext1⟩, hregs1, hgood1⟩ := hcore
        have hlp : lp = true := by
          by_contra hlp
          simp only [selfKey] at hsl
          rw [Bool.not_eq_true] at hlp
          subst hlp
          simp at hsl
        have hselfo : selfKeyAt (heap1 ++ [⟨lp, links, true, embRefs⟩])
            heap1.length = some s := by
          unfold selfKeyAt
          rw [heapGet_append_self]
          exact hsl
        have hwself : wireSelfKey (.mk lp links ep emb) = some s := by
          rw [← hsl]
          rfl
        have hlen1 : (heap1 ++ [(⟨lp, links, true, embRefs⟩ : HalObj)]).length =
            heap1.length + 1 := by
          rw [List.length_append, List.length_singleton]
        refine ⟨⟨⟨ext1 ++ [⟨lp, links, true, embRefs⟩], by
            rw [hext1, List.append_assoc]⟩, ?_, ?_⟩,
          by rw [hlen1]; exact Nat.lt_succ_self _, by rw [hselfo, hwself]⟩
        · intro p hp
          rcases List.mem_cons.mp hp with hhd | htl
          · subst hhd
            exact ⟨by rw [hlen1]; exact Nat.lt_succ_self _, hselfo⟩
          · obtain ⟨hlt, hself⟩ := hregs1 p htl
            refine ⟨by rw [hlen1]; exact Nat.lt_succ_of_lt hlt, ?_⟩
            rw [selfKeyAt_append_lt [⟨lp, links, true, embRefs⟩] hlt]
            exact hself
        · intro hg
          have hg1 := hgood1 hg
          intro i o2 hgi
          rcases heapGet_append_one_cases hgi with ⟨hlt, hgo⟩ | ⟨heq, ho⟩
          · exact goodObj_mono (hg1 i o2 hgo) (by rw [hlen1]; exact Nat.le_succ _)
          · subst ho
            refine ⟨hlp, rfl, by rw [hsl]; rfl, ?_⟩
            intro rel v hv r hr
            have hb := hbound rel v hv r hr
            rw [hlen1]
            exact Nat.lt_succ_of_lt hb
  · -- WireEntries.nil
    intro heap embRefs heap' regs halloc
    simp only [allocEntries, Option.some_inj, Prod.mk.injEq] at halloc
    obtain ⟨h1, h2, h3⟩ := halloc
    subst h1 h2 h3
    exact ⟨allocCore_refl heap, fun rel v hv => by simp [alookup] at hv⟩
  · -- WireEntries.cons
    intro rel v rest ihv ihr heap embRefs heap' regs halloc
    simp only [allocEntries] at halloc
    cases hav : allocVal v heap with
    | none => rw [hav] at halloc; exact absurd halloc (by simp)
    | some trip1 =>
      obtain ⟨rs, heap1, regs1⟩ := trip1
      rw [hav] at halloc
      dsimp only at halloc
      cases har : allocEntries rest heap1 with
      | none => rw [har] at halloc; exact absurd halloc (by simp)
      | some trip2 =>
        obtain ⟨restRefs, heap2, regs2⟩ := trip2
        rw [har] at halloc
        dsimp only at halloc
        simp only [Option.some_inj, Prod.mk.injEq] at halloc
        obtain ⟨h1, h2, h3⟩ := halloc
        subst h1 h2 h3
        obtain ⟨hcore1, hb1⟩ := ihv heap rs heap1 regs1 hav
        obtain ⟨hcore2, hb2⟩ := ihr heap1 restRefs heap2 regs2 har
        have hlen12 : heap1.length ≤ heap2.length := by
          obtain ⟨e2, he2⟩ := hcore2.1
          rw [he2, List.length_append]; omega
        refine ⟨allocCore_trans hcore1 hcore2, ?_⟩
        intro rel0 v0 hv0 r hr
        simp only [alookup] at hv0
        split_ifs at hv0 with hrel
        · obtain rfl := Option.some_inj.mp hv0
          exact Nat.lt_of_lt_of_le (hb1 r hr) hlen12
        · exact hb2 rel0 v0 hv0 r hr
  · -- WireVal.one
    intro w ihw heap oref heap' regs halloc
    simp only [allocVal] at halloc
    cases haw : allocWire w heap with
    | none => rw [haw] at halloc; exact absurd halloc (by simp)
    | some trip =>
      obtain ⟨r, heap1, regs1⟩ := trip
      rw [haw] at halloc
      dsimp only at halloc
      simp only [Option.some_inj, Prod.mk.injEq] at halloc
      obtain ⟨h1, h2, h3⟩ := halloc
      subst h1 h2 h3
      obtain ⟨hcore, hlt, _⟩ := ihw heap r heap1 regs1 haw
      refine ⟨hcore, ?_⟩
      intro r0 hr0
      simp only [oomRefs, List.mem_singleton] at hr0
      subst hr0
      exact hlt
  · -- WireVal.many
    intro ws ihl heap oref heap' regs halloc
    simp only [allocVal] at halloc
    cases hal : allocList ws heap with
    | none => rw [hal] at halloc; exact absurd halloc (by simp)
    | some trip =>
      obtain ⟨rs, heap1, regs1⟩ := trip
      rw [hal] at halloc
      dsimp only at halloc
      simp only [Option.some_inj, Prod.mk.injEq] at halloc
      obtain ⟨h1, h2, h3⟩ := halloc
      subst h1 h2 h3
      obtain ⟨hcore, hb⟩ := ihl heap rs heap1 regs1 hal
      exact ⟨hcore, fun r hr => hb r hr⟩
  · -- WireList.nil
    intro heap rs heap' regs halloc
    simp only [allocList, Option.some_inj, Prod.mk.injEq] at halloc
    obtain ⟨h1, h2, h3⟩ := halloc
    subst h1 h2 h3
    exact ⟨allocCore_refl heap, fun r hr => absurd hr (by simp)⟩
  · -- WireList.cons
    intro w rest ihw ihr heap rs heap' regs halloc
    simp only [allocList] at halloc
    cases haw : allocWire w heap with
    | none => rw [haw] at halloc; exact absurd halloc (by simp)
    | some trip1 =>
      obtain ⟨r, heap1, regs1⟩ := trip1
      rw [haw] at halloc
      dsimp only at halloc
      cases hal : allocList rest heap1 with
      | none => rw [hal] at halloc; exact absurd halloc (by simp)
      | some trip2 =>
        obtain ⟨rs2, heap2, regs2⟩ := trip2
        rw [hal] at halloc
        dsimp only at halloc
        simp only [Option.some_inj, Prod.mk.injEq] at halloc
        obtain ⟨h1, h2, h3⟩ := halloc
        subst h1 h2 h3
        obtain ⟨hcore1, hlt, _⟩ := ihw heap r heap1 regs1 haw
        obtain ⟨hcore2, hb2⟩ := ihr heap1 rs2 heap2 regs2 hal
        have hlen12 : heap1.length ≤ heap2.length := by
          obtain ⟨e2, he2⟩ := hcore2.1
          rw [he2, List.length_append]; omega
        refine ⟨allocCore_trans hcore1 hcore2, ?_⟩
        intro r0 hr0
        rcases List.mem_cons.mp hr0 with hhd | htl
        · subst hhd
          exact Nat.lt_of_lt_of_le hlt hlen12
        · exact hb2 r0 htl

theorem attach_stepOK (env : Env) {st1 : St} {ref : Ref} {o1 : HalObj} {rel : String}
    (v : OneOrMany Ref) (hpre : Pre st1) (hg : heapGet st1.heap ref = some o1)
    (hv : ∀ r ∈ oomRefs v, r < st1.heap.length) :
    StepOK env st1
      ⟨heapSet st1.heap ref
          ⟨o1.linksPresent, o1.links, o1.embPresent, aset o1.embedded rel v⟩,
        st1.ctx, st1.log⟩ := by
  have hlt : ref < st1.heap.length := heapGet_some_lt hg
  have hlen : (heapSet st1.heap ref
      ⟨o1.linksPresent, o1.links, o1.embPresent, aset o1.embedded rel v⟩).length =
      st1.heap.length := length_heapSet _ _ _
  have hselfeq : selfKey
      (⟨o1.linksPresent, o1.links, o1.embPresent, aset o1.embedded rel v⟩ : HalObj) =
      selfKey o1 := rfl
  obtain ⟨hnd, hlog, hgood, hcv⟩ := hpre
  refine ⟨by rw [hlen], ?_, fun u h => h, ?_, ?_⟩
  · intro i o hgi
    by_cases hi : i = ref
    · subst hi
      rw [hgi] at hg
      obtain rfl := Option.some_inj.mp hg
      refine ⟨_, heapGet_heapSet_self _ hlt, rfl, rfl, rfl, ?_⟩
      intro rel' hsome
      exact alookup_aset_isSome rel v hsome
    · exact ⟨o, by rw [heapGet_heapSet_ne _ hi]; exact hgi, rfl, rfl, rfl, fun _ h => h⟩
  · refine ⟨hnd, hlog, ?_, ?_⟩
    · intro i o hgi
      rw [hlen]
      by_cases hi : i = ref
      · subst hi
        rw [heapGet_heapSet_self _ hlt] at hgi
        obtain rfl := Option.some_inj.mp hgi.symm
        obtain ⟨hg1, hg2, hg3, hg4⟩ := hgood _ o1 hg
        refine ⟨hg1, hg2, by rw [hselfeq]; exact hg3, ?_⟩
        intro rel' v' hlk r hr
        rcases alookup_aset_inv hlk with ⟨_, hveq⟩ | hold
        · subst hveq
          exact hv r hr
        · exact hg4 rel' v' hold r hr
      · rw [heapGet_heapSet_ne _ hi] at hgi
        exact hgood i o hgi
    · intro u r hlk
      rw [hlen]
      exact hcv u r hlk
  · intro _ hself u r hlk
    rw [selfKeyAt_heapSet hg hselfeq]
    exact hself u r hlk

theorem nodup_append_singleton {l : List String} {a : String}
    (hnd : l.Nodup) (hna : a ∉ l) : (l ++ [a]).Nodup := by
  induction l with
  | nil => simp
  | cons b rest ih =>
    rw [List.mem_cons] at hna
    push_neg at hna
    rw [List.nodup_cons] at hnd
    rw [List.cons_append, List.nodup_cons]
    refine ⟨?_, ih hnd.2 hna.2⟩
    intro hmem
    rcases List.mem_append.mp hmem with hr | hs
    · exact hnd.1 hr
    · rw [List.mem_singleton] at hs
      exact hna.1 hs.symm

theorem objPres_selfAt {st st' : St} (hp : ObjPres st st') {i : Ref} {s : String}
    (hs : selfAt st.heap i = some s) : selfAt st'.heap i = some s := by
  unfold selfAt at hs ⊢
  cases hg : heapGet st.heap i with
  | none => rw [hg] at hs; simp at hs
  | some o =>
    rw [hg] at hs
    obtain ⟨o', hg', hlp, hl, _, _⟩ := hp i o hg
    rw [hg']
    have heq : selfLink o' = selfLink o := by
      unfold selfLink
      rw [hlp, hl]
    simp only [heq]
    exact hs

theorem objPres_selfKeyAt {st st' : St} (hp : ObjPres st st') {i : Ref} {s : String}
    (hs : selfKeyAt st.heap i = some s) : selfKeyAt st'.heap i = some s := by
  unfold selfKeyAt at hs ⊢
  cases hg : heapGet st.heap i with
  | none => rw [hg] at hs; simp at hs
  | some o =>
    rw [hg] at hs
    obtain ⟨o', hg', hlp, hl, _, _⟩ := hp i o hg
    rw [hg']
    have heq : selfKey o' = selfKey o := by
      unfold selfKey
      rw [hlp, hl]
    simp only [heq]
    exact hs

theorem fetchStep_stepOK (env : Env) {opts : Opts} {uri : String} {w : HalWire}
    {st : St} {ref : Ref} {heap1 : Heap} {regs : List (String × Ref)}
    (hpre : Pre st)
    (hmiss : alookup st.ctx uri = none)
    (henv : env opts uri = some w)
    (halloc : allocWire w st.heap = some (ref, heap1, regs)) :
    StepOK env st ⟨heap1, applyRegs regs (aset st.ctx uri ref), st.log ++ [uri]⟩ ∧
    ref < heap1.length ∧ (WfEnv env → selfKeyAt heap1 ref = some uri) := by
  obtain ⟨hcore, hlt, hselfw⟩ := alloc_post.1 w st.heap ref heap1 regs halloc
  obtain ⟨⟨ext, hext⟩, hregs, hgood⟩ := hcore
  obtain ⟨hnd, hlog, hgd, hcv⟩ := hpre
  have hlen : st.heap.length ≤ heap1.length := by
    rw [hext, List.length_append]; omega
  have hwfself : WfEnv env → selfKeyAt heap1 ref = some uri := by
    intro hwf
    rw [hselfw]
    exact wireSelf_key (hwf opts uri w henv)
  refine ⟨⟨hlen, ?_, ?_, ?_, ?_⟩, hlt, hwfself⟩
  · intro i o hg
    have hi := heapGet_some_lt hg
    refine ⟨o, ?_, rfl, rfl, rfl, fun _ h => h⟩
    show heapGet heap1 i = some o
    rw [hext, heapGet_append_lt ext hi]
    exact hg
  · intro u h
    exact applyRegs_isSome (alookup_aset_isSome uri ref h)
  · have hnotin : uri ∉ st.log := by
      intro hmem
      have := hlog uri hmem
      rw [hmiss] at this
      simp at this
    refine ⟨nodup_append_singleton hnd hnotin, ?_, hgood hgd, ?_⟩
    · intro u hu
      rcases List.mem_append.mp hu with hold | hnew
      · exact applyRegs_isSome (alookup_aset_isSome uri ref (hlog u hold))
      · rw [List.mem_singleton] at hnew
        subst hnew
        refine applyRegs_isSome ?_
        rw [alookup_aset]
        simp
    · intro u r hlk
      rcases applyRegs_inv hlk with hmem | hset
      · exact (hregs (u, r) hmem).1
      · rcases alookup_aset_inv hset with ⟨hu, hr⟩ | hold
        · subst hr
          exact hlt
        · exact Nat.lt_of_lt_of_le (hcv u r hold) hlen
  · intro hwf hself u r hlk
    rcases applyRegs_inv hlk with hmem | hset
    · exact (hregs (u, r) hmem).2
    · rcases alookup_aset_inv hset with ⟨hu, hr⟩ | hold
      · subst hu hr
        exact hwfself hwf
      · have hs := hself u r hold
        have hrlt := selfKeyAt_some_lt hs
        rw [hext, selfKeyAt_append_lt ext hrlt]
        exact hs

theorem interp_master (env : Env) (opts : Opts) : ∀ f : Nat,
    (∀ uri c st r st', Pre st → fetchHalJson env opts f uri c st = .ok (r, st') →
      StepOK env st st' ∧ r < st'.heap.length ∧
      (WfEnv env → SelfInv st → selfKeyAt st'.heap r = some uri)) ∧
    (∀ ref c st r st', Pre st → fetchAndEmbedLinks env opts f ref c st = .ok (r, st') →
      r = ref ∧ StepOK env st st') ∧
    (∀ ref rel c st o st', Pre st →
      fetchAndEmbedLink env opts f ref rel c st = .ok (o, st') →
      StepOK env st st') := by
  intro f
  induction f with
  | zero =>
    refine ⟨?_, ?_, ?_⟩
    · intro uri c st r st' hpre hrun
      exact absurd hrun (by simp [fetchHalJson])
    · intro ref c st r st' hpre hrun
      exact absurd hrun (by simp [fetchAndEmbedLinks])
    · intro ref rel c st o st' hpre hrun
      exact absurd hrun (by simp [fetchAndEmbedLink])
  | succ f ih =>
    obtain ⟨ihJ, ihL, ihK⟩ := ih
    refine ⟨?_, ?_, ?_⟩
    · -- fetchHalJson
      intro uri c st r st' hpre hrun
      simp only [fetchHalJson] at hrun
      cases hctx : alookup st.ctx uri with
      | some r0 =>
        rw [hctx] at hrun
        dsimp only at hrun
        obtain ⟨hr, hso⟩ := ihL r0 c st r st' hpre hrun
        refine ⟨hso, ?_, ?_⟩
        · have h0 : r0 < st.heap.length := hpre.2.2.2 uri r0 hctx
          rw [hr]
          exact Nat.lt_of_lt_of_le h0 hso.1
        · intro hwf hself
          rw [hr]
          exact objPres_selfKeyAt hso.2.1 (hself uri r0 hctx)
      | none =>
        rw [hctx] at hrun
        dsimp only at hrun
        cases henv : env opts uri with
        | none => rw [henv] at hrun; exact absurd hrun (by simp)
        | some w =>
          rw [henv] at hrun
          dsimp only at hrun
          cases halloc : allocWire w st.heap with
          | none => rw [halloc] at hrun; exact absurd hrun (by simp)
          | some trip =>
            obtain ⟨ref0, heap1, regs⟩ := trip
            rw [halloc] at hrun
            dsimp only at hrun
            obtain ⟨hsoF, hltF, hselfF⟩ := fetchStep_stepOK env hpre hctx henv halloc
            obtain ⟨hr, hsoL⟩ := ihL ref0 c _ r st' hsoF.2.2.2.1 hrun
            subst hr
            refine ⟨stepOK_trans hsoF hsoL, ?_, ?_⟩
            · exact Nat.lt_of_lt_of_le hltF hsoL.1
            · intro hwf hself
              exact objPres_selfKeyAt hsoL.2.1 (hselfF hwf)
    · -- fetchAndEmbedLinks
      intro ref c st r st' hpre hrun
      simp only [fetchAndEmbedLinks] at hrun
      cases hfold : foldEntries
          (fun rel child st1 => fetchAndEmbedLink env opts f ref rel child st1)
          (reqEntries c) st with
      | error e => rw [hfold] at hrun; exact absurd hrun (by simp)
      | ok st1 =>
        rw [hfold] at hrun
        dsimp only at hrun
        simp only [Except.ok.injEq, Prod.mk.injEq] at hrun
        obtain ⟨h1, h2⟩ := hrun
        subst h1 h2
        refine ⟨rfl, ?_⟩
        exact foldEntries_stepOK (reqEntries c) st st1
          (fun rel c0 st0 o st2 hin hpre0 hstep =>
            ihK ref rel c0 st0 o st2 hpre0 hstep) hpre hfold
    · -- fetchAndEmbedLink
      intro ref rel c st o st' hpre hrun
      simp only [fetchAndEmbedLink] at hrun
      cases hg : heapGet st.heap ref with
      | none => rw [hg] at hrun; exact absurd hrun (by simp)
      | some o0 =>
        rw [hg] at hrun
        dsimp only at hrun
        cases hlh : linkHrefE (fun u _ => u) st.heap o0 rel none with
        | error e => rw [hlh] at hrun; exact absurd hrun (by simp)
        | ok hrefs =>
          rw [hlh] at hrun
          cases hrefs with
          | none =>
            dsimp only at hrun
            simp only [Except.ok.injEq, Prod.mk.injEq] at hrun
            obtain ⟨h1, h2⟩ := hrun
            subst h2
            exact stepOK_refl env hpre
          | some oom =>
            cases oom with
            | one h =>
              dsimp only at hrun
              by_cases hemp : h = ""
              · rw [if_pos hemp] at hrun
                simp only [Except.ok.injEq, Prod.mk.injEq] at hrun
                obtain ⟨h1, h2⟩ := hrun
                subst h2
                exact stepOK_refl env hpre
              · rw [if_neg hemp] at hrun
                cases hJ : fetchHalJson env opts f h c st with
                | error e => rw [hJ] at hrun; exact absurd hrun (by simp)
                | ok p =>
                  obtain ⟨r1, st1⟩ := p
                  rw [hJ] at hrun
                  dsimp only at hrun
                  cases hg1 : heapGet st1.heap ref with
                  | none => rw [hg1] at hrun; exact absurd hrun (by simp)
                  | some o1 =>
                    rw [hg1] at hrun
                    dsimp only at hrun
                    simp only [Except.ok.injEq, Prod.mk.injEq] at hrun
                    obtain ⟨h1, h2⟩ := hrun
                    subst h2
                    obtain ⟨hsoJ, hvJ, _⟩ := ihJ h c st r1 st1 hpre hJ
                    refine stepOK_trans hsoJ
                      (attach_stepOK env (.one r1) hsoJ.2.2.2.1 hg1 ?_)
                    intro rr hrr
                    simp only [oomRefs, List.mem_singleton] at hrr
                    subst hrr
                    exact hvJ
            | many hs =>
              dsimp only at hrun
              cases hM : foldHrefs
                  (fun h st1 => fetchHalJson env opts f h c st1) hs st with
              | error e => rw [hM] at hrun; exact absurd hrun (by simp)
              | ok q =>
                obtain ⟨rs, st1⟩ := q
                rw [hM] at hrun
                dsimp only at hrun
                cases hg1 : heapGet st1.heap ref with
                | none => rw [hg1] at hrun; exact absurd hrun (by simp)
                | some o1 =>
                  rw [hg1] at hrun
                  dsimp only at hrun
                  simp only [Except.ok.injEq, Prod.mk.injEq] at hrun
                  obtain ⟨h1, h2⟩ := hrun
                  subst h2
                  obtain ⟨hsoM, hvM⟩ := foldHrefs_stepOK hs st rs st1
                    (fun h st0 r2 st2 hpre0 hstep =>
                      ⟨(ihJ h c st0 r2 st2 hpre0 hstep).1,
                        (ihJ h c st0 r2 st2 hpre0 hstep).2.1⟩) hpre hM
                  exact stepOK_trans hsoM
                    (attach_stepOK env (.many rs) hsoM.2.2.2.1 hg1 hvM)

theorem fuelL_pos : ∀ c : ReqChild, 1 ≤ fuelL c := by
  intro c
  cases c with
  | null => simp [fuelL]
  | node q =>
    cases q with
    | mk es => simp only [fuelL]; omega

theorem reqChild_entry_bound {c : ReqChild} {g : Nat} (hb : fuelL c ≤ g + 1)
    {rel : String} {c0 : ReqChild} (hin : EntIn rel c0 (reqEntries c)) :
    2 + fuelL c0 ≤ g := by
  cases c with
  | null => exact absurd hin (by simp [reqEntries, EntIn])
  | node q =>
    cases q with
    | mk es =>
      simp only [reqEntries] at hin
      have h1 := entIn_fuelEnts es hin
      simp only [fuelL, fuelReq] at hb
      omega

theorem linkHrefE_ne_fuelOut (expand : String → Params → String) (h : Heap)
    (o : HalObj) (rel : String) (params : Option Params) :
    linkHrefE expand h o rel params ≠ .error .fuelOut := by
  unfold linkHrefE
  repeat' split
  all_goals simp

theorem fuel_irrelevance (env : Env) (opts : Opts) : ∀ f1 : Nat, ∀ f2 : Nat,
    (∀ uri c st, fuelJ c ≤ f1 → fuelJ c ≤ f2 →
      fetchHalJson env opts f1 uri c st = fetchHalJson env opts f2 uri c st ∧
      fetchHalJson env opts f1 uri c st ≠ .error .fuelOut) ∧
    (∀ ref c st, fuelL c ≤ f1 → fuelL c ≤ f2 →
      fetchAndEmbedLinks env opts f1 ref c st = fetchAndEmbedLinks env opts f2 ref c st ∧
      fetchAndEmbedLinks env opts f1 ref c st ≠ .error .fuelOut) ∧
    (∀ ref rel c st, 2 + fuelL c ≤ f1 → 2 + fuelL c ≤ f2 →
      fetchAndEmbedLink env opts f1 ref rel c st =
        fetchAndEmbedLink env opts f2 ref rel c st ∧
      fetchAndEmbedLink env opts f1 ref rel c st ≠ .error .fuelOut) := by
  intro f1
  induction f1 with
  | zero =>
    intro f2
    refine ⟨?_, ?_, ?_⟩
    · intro uri c st hb1 hb2
      exact absurd hb1 (by simp only [fuelJ]; have := fuelL_pos c; omega)
    · intro ref c st hb1 hb2
      exact absurd hb1 (by have := fuelL_pos c; omega)
    · intro ref rel c st hb1 hb2
      exact absurd hb1 (by have := fuelL_pos c; omega)
  | succ f1 ih =>
    intro f2
    refine ⟨?_, ?_, ?_⟩
    · -- fetchHalJson
      intro uri c st hb1 hb2
      have hL1 : fuelL c ≤ f1 := by simp only [fuelJ] at hb1; omega
      cases f2 with
      | zero => exact absurd hb2 (by simp only [fuelJ]; have := fuelL_pos c; omega)
      | succ g2 =>
        have hL2 : fuelL c ≤ g2 := by simp only [fuelJ] at hb2; omega
        simp only [fetchHalJson]
        cases hctx : alookup st.ctx uri with
        | some r0 =>
          dsimp only
          exact (ih g2).2.1 r0 c st hL1 hL2
        | none =>
          dsimp only
          cases henv : env opts uri with
          | none =>
            dsimp only
            exact ⟨rfl, by simp⟩
          | some w =>
            dsimp only
            cases halloc : allocWire w st.heap with
            | none =>
              dsimp only
              exact ⟨rfl, by simp⟩
            | some trip =>
              obtain ⟨ref0, heap1, regs⟩ := trip
              dsimp only
              exact (ih g2).2.1 ref0 c _ hL1 hL2
    · -- fetchAndEmbedLinks
      intro ref c st hb1 hb2
      cases f2 with
      | zero => exact absurd hb2 (by have := fuelL_pos c; omega)
      | succ g2 =>
        simp only [fetchAndEmbedLinks]
        refine ⟨?_, ?_⟩
        · have hcong : foldEntries
              (fun rel child st1 => fetchAndEmbedLink env opts f1 ref rel child st1)
              (reqEntries c) st =
              foldEntries
              (fun rel child st1 => fetchAndEmbedLink env opts g2 ref rel child st1)
              (reqEntries c) st :=
            foldEntries_congr _ _ (fun rel c0 st0 hin =>
              ((ih g2).2.2 ref rel c0 st0 (reqChild_entry_bound hb1 hin)
                (reqChild_entry_bound hb2 hin)).1)
          rw [hcong]
        · have hne := foldEntries_ne_fuelOut (reqEntries c) st
            (fun rel c0 st0 hin =>
              ((ih f1).2.2 ref rel c0 st0 (reqChild_entry_bound hb1 hin)
                (reqChild_entry_bound hb1 hin)).2)
          cases hfold : foldEntries
              (fun rel child st1 => fetchAndEmbedLink env opts f1 ref rel child st1)
              (reqEntries c) st with
          | error e =>
            dsimp only
            intro hcon
            rw [Except.error.injEq] at hcon
            exact hne (by rw [hfold, hcon])
          | ok st1 =>
            dsimp only
            simp
    · -- fetchAndEmbedLink
      intro ref rel c st hb1 hb2
      have hJ1 : fuelJ c ≤ f1 := by simp only [fuelJ]; omega
      cases f2 with
      | zero => exact absurd hb2 (by have := fuelL_pos c; omega)
      | succ g2 =>
        have hJ2 : fuelJ c ≤ g2 := by simp only [fuelJ]; omega
        simp only [fetchAndEmbedLink]
        cases hg : heapGet st.heap ref with
        | none =>
          dsimp only
          exact ⟨rfl, by simp⟩
        | some o0 =>
          dsimp only
          cases hlh : linkHrefE (fun u _ => u) st.heap o0 rel none with
          | error e =>
            dsimp only
            refine ⟨rfl, ?_⟩
            intro hcon
            rw [Except.error.injEq] at hcon
            exact linkHrefE_ne_fuelOut (fun u _ => u) st.heap o0 rel none
              (by rw [hlh, hcon])
          | ok hrefs =>
            cases hrefs with
            | none =>
              dsimp only
              exact ⟨rfl, by simp⟩
            | some oom =>
              cases oom with
              | one h =>
                dsimp only
                by_cases hemp : h = ""
                · simp only [if_pos hemp]
                  exact ⟨trivial, by simp⟩
                · simp only [if_neg hemp]
                  obtain ⟨hJeq, hJne⟩ := (ih g2).1 h c st hJ1 hJ2
                  rw [hJeq]
                  refine ⟨rfl, ?_⟩
                  rw [← hJeq]
                  cases hJr : fetchHalJson env opts f1 h c st with
                  | error e =>
                    dsimp only
                    intro hcon
                    rw [Except.error.injEq] at hcon
                    exact hJne (by rw [hJr, hcon])
                  | ok p =>
                    obtain ⟨r1, st1⟩ := p
                    dsimp only
                    cases heapGet st1.heap ref with
                    | none => simp
                    | some o1 => simp
              | many hs =>
                dsimp only
                have hMeq : foldHrefs
                    (fun h st1 => fetchHalJson env opts f1 h c st1) hs st =
                    foldHrefs
                    (fun h st1 => fetchHalJson env opts g2 h c st1) hs st :=
                  foldHrefs_congr hs st
                    (fun h st0 => ((ih g2).1 h c st0 hJ1 hJ2).1)
                rw [hMeq]
                refine ⟨rfl, ?_⟩
                rw [← hMeq]
                have hMne := foldHrefs_ne_fuelOut hs st
                  (fun h st0 => ((ih f1).1 h c st0 hJ1 hJ1).2)
                cases hMr : foldHrefs
                    (fun h st1 => fetchHalJson env opts f1 h c st1) hs st with
                | error e =>
                  dsimp only
                  intro hcon
                  rw [Except.error.injEq] at hcon
                  exact hMne (by rw [hMr, hcon])
                | ok q =>
                  obtain ⟨rs, st1⟩ := q
                  dsimp only
                  cases heapGet st1.heap ref with
                  | none => simp
                  | some o1 => simp

theorem halJson_init {w : HalWire} {ref : Ref} {heap1 : Heap}
    {regs : List (String × Ref)}
    (halloc : allocWire w [] = some (ref, heap1, regs)) :
    Pre ⟨heap1, applyRegs regs [], []⟩ ∧ ref < heap1.length ∧
    SelfInv ⟨heap1, applyRegs regs [], []⟩ := by
  obtain ⟨hcore, hlt, hselfw⟩ := alloc_post.1 w [] ref heap1 regs halloc
  obtain ⟨⟨ext, hext⟩, hregs, hgood⟩ := hcore
  refine ⟨⟨List.nodup_nil, ?_, ?_, ?_⟩, hlt, ?_⟩
  · intro u hu
    exact absurd hu (by simp)
  · refine hgood ?_
    intro i o hg
    cases i <;> simp [heapGet, List.get?] at hg
  · intro u r hlk
    rcases applyRegs_inv hlk with hmem | hbase
    · exact (hregs (u, r) hmem).1
    · simp [alookup] at hbase
  · intro u r hlk
    rcases applyRegs_inv hlk with hmem | hbase
    · exact (hregs (u, r) hmem).2
    · simp [alookup] at hbase

theorem halJson_spec {env : Env} {opts : Opts} {embeds : ReqChild} {w : HalWire}
    {r : Ref} {st : St} (hrun : halJson env opts embeds w = .ok (r, st)) :
    ∃ ref heap1 regs, allocWire w [] = some (ref, heap1, regs) ∧ r = ref ∧
    fetchAndEmbedLinks env opts (fuelL (effReq opts embeds)) ref
      (effReq opts embeds) ⟨heap1, applyRegs regs [], []⟩ = .ok (r, st) ∧
    StepOK env ⟨heap1, applyRegs regs [], []⟩ st ∧ Pre st ∧
    (WfEnv env → SelfInv st) := by
  unfold halJson at hrun
  cases halloc : allocWire w [] with
  | none => rw [halloc] at hrun; exact absurd hrun (by simp)
  | some trip =>
    obtain ⟨ref, heap1, regs⟩ := trip
    rw [halloc] at hrun
    dsimp only at hrun
    obtain ⟨hinitPre, hlt, hinitSelf⟩ := halJson_init halloc
    obtain ⟨hr, hso⟩ := (interp_master env opts (fuelL (effReq opts embeds))).2.1
      ref (effReq opts embeds) _ r st hinitPre hrun
    exact ⟨ref, heap1, regs, rfl, hr, hrun, hso, hso.2.2.2.1,
      fun hwf => hso.2.2.2.2 hwf hinitSelf⟩

theorem linkHrefE_links_one {expand : String → Params → String} {h : Heap}
    {o : HalObj} {rel : String} {params : Option Params} {l : Link}
    (hl : alookup o.links rel = some (.one l)) :
    linkHrefE expand h o rel params =
      .ok (some (.one (resolveUri expand l.href params))) := by
  unfold linkHrefE
  rw [hl]

theorem linkHrefE_links_many {expand : String → Params → String} {h : Heap}
    {o : HalObj} {rel : String} {params : Option Params} {ls : List Link}
    (hl : alookup o.links rel = some (.many ls)) :
    linkHrefE expand h o rel params =
      .ok (some (.many (ls.map (fun l => resolveUri expand l.href params)))) := by
  unfold linkHrefE
  rw [hl]

theorem linkHrefE_emb_one {expand : String → Params → String} {h : Heap}
    {o : HalObj} {rel : String} {params : Option Params} {r : Ref} {s : String}
    (hl : alookup o.links rel = none)
    (he : alookup o.embedded rel = some (.one r))
    (hs : selfAt h r = some s) :
    linkHrefE expand h o rel params = .ok (some (.one s)) := by
  unfold linkHrefE
  rw [hl, he]
  dsimp only
  rw [selfHrefAt_of_selfAt hs]

theorem linkHrefE_emb_many {expand : String → Params → String} {h : Heap}
    {o : HalObj} {rel : String} {params : Option Params} {rs : List Ref}
    {ss : List String}
    (hl : alookup o.links rel = none)
    (he : alookup o.embedded rel = some (.many rs))
    (hs : (rs.mapM (fun r => selfAt h r) : Option (List String)) = some ss) :
    linkHrefE expand h o rel params = .ok (some (.many ss)) := by
  unfold linkHrefE
  rw [hl, he]
  dsimp only
  rw [mapM_selfAt_key rs hs]

theorem linkHrefE_absent {expand : String → Params → String} {h : Heap}
    {o : HalObj} {rel : String} {params : Option Params}
    (hl : alookup o.links rel = none)
    (he : alookup o.embedded rel = none) :
    linkHrefE expand h o rel params = .ok none := by
  unfold linkHrefE
  rw [hl, he]

theorem objPres_resolvable {st st' : St} (hp : ObjPres st st') {ref : Ref}
    {o o' : HalObj} {rel : String}
    (hg : heapGet st.heap ref = some o) (hg' : heapGet st'.heap ref = some o')
    (hres : LinksResolvable o rel) : LinksResolvable o' rel := by
  obtain ⟨o2, hg2, _, hl, _, _⟩ := hp ref o hg
  rw [hg'] at hg2
  obtain rfl := Option.some_inj.mp hg2
  unfold LinksResolvable at hres ⊢
  rw [hl]
  exact hres

theorem resolvable_not_skipped {expand : String → Params → String} {h : Heap}
    {o : HalObj} {rel : String} (hres : LinksResolvable o rel) :
    ¬ (linkHrefE expand h o rel none = .ok none ∨
       linkHrefE expand h o rel none = .ok (some (.one ""))) := by
  unfold LinksResolvable at hres
  intro hcon
  cases hl : alookup o.links rel with
  | none => rw [hl] at hres; exact hres
  | some v =>
    cases v with
    | one l =>
      rw [hl] at hres
      have heq := @linkHrefE_links_one expand h _ _ none _ hl
      rcases hcon with hc | hc
      · rw [heq] at hc
        simp at hc
      · rw [heq] at hc
        simp only [Except.ok.injEq, Option.some_inj, OneOrMany.one.injEq] at hc
        exact hres hc
    | many ls =>
      have heq := @linkHrefE_links_many expand h _ _ none _ hl
      rcases hcon with hc | hc
      · rw [heq] at hc
        simp at hc
      · rw [heq] at hc
        simp at hc

theorem fetchAndEmbedLink_cases {env : Env} {opts : Opts} {f : Nat} {ref : Ref}
    {rel : String} {c : ReqChild} {st : St} {o : Option Ref} {st' : St}
    (hrun : fetchAndEmbedLink env opts (f + 1) ref rel c st = .ok (o, st')) :
    (st' = st ∧ ∀ o0, heapGet st.heap ref = some o0 →
       linkHrefE (fun u _ => u) st.heap o0 rel none = .ok none ∨
       linkHrefE (fun u _ => u) st.heap o0 rel none = .ok (some (.one ""))) ∨
    (∃ o1, heapGet st'.heap ref = some o1 ∧
       (alookup o1.embedded rel).isSome = true) := by
  simp only [fetchAndEmbedLink] at hrun
  cases hg : heapGet st.heap ref with
  | none => rw [hg] at hrun; exact absurd hrun (by simp)
  | some o0 =>
    rw [hg] at hrun
    dsimp only at hrun
    cases hlh : linkHrefE (fun u _ => u) st.heap o0 rel none with
    | error e => rw [hlh] at hrun; exact absurd hrun (by simp)
    | ok hrefs =>
      rw [hlh] at hrun
      cases hrefs with
      | none =>
        dsimp only at hrun
        simp only [Except.ok.injEq, Prod.mk.injEq] at hrun
        obtain ⟨h1, h2⟩ := hrun
        subst h2
        refine Or.inl ⟨rfl, ?_⟩
        intro o0' hg'
        have ho := Option.some_inj.mp hg'
        subst ho
        exact Or.inl hlh
      | some oom =>
        cases oom with
        | one h =>
          dsimp only at hrun
          by_cases hemp : h = ""
          · rw [if_pos hemp] at hrun
            simp only [Except.ok.injEq, Prod.mk.injEq] at hrun
            obtain ⟨h1, h2⟩ := hrun
            subst h2
            refine Or.inl ⟨rfl, ?_⟩
            intro o0' hg'
            have ho := Option.some_inj.mp hg'
            subst ho
            subst hemp
            exact Or.inr hlh
          · rw [if_neg hemp] at hrun
            cases hJ : fetchHalJson env opts f h c st with
            | error e => rw [hJ] at hrun; exact absurd hrun (by simp)
            | ok p =>
              obtain ⟨r1, st1⟩ := p
              rw [hJ] at hrun
              dsimp only at hrun
              cases hg1 : heapGet st1.heap ref with
              | none => rw [hg1] at hrun; exact absurd hrun (by simp)
              | some o1 =>
                rw [hg1] at hrun
                dsimp only at hrun
                simp only [Except.ok.injEq, Prod.mk.injEq] at hrun
                obtain ⟨h1, h2⟩ := hrun
                subst h2
                refine Or.inr ⟨_, heapGet_heapSet_self _ (heapGet_some_lt hg1), ?_⟩
                show (alookup (aset o1.embedded rel (.one r1)) rel).isSome = true
                rw [alookup_aset]
                simp
        | many hs =>
          dsimp only at hrun
          cases hM : foldHrefs (fun h st1 => fetchHalJson env opts f h c st1) hs st with
          | error e => rw [hM] at hrun; exact absurd hrun (by simp)
          | ok q =>
            obtain ⟨rs, st1⟩ := q
            rw [hM] at hrun
            dsimp only at hrun
            cases hg1 : heapGet st1.heap ref with
            | none => rw [hg1] at hrun; exact absurd hrun (by simp)
            | some o1 =>
              rw [hg1] at hrun
              dsimp only at hrun
              simp only [Except.ok.injEq, Prod.mk.injEq] at hrun
              obtain ⟨h1, h2⟩ := hrun
              subst h2
              refine Or.inr ⟨_, heapGet_heapSet_self _ (heapGet_some_lt hg1), ?_⟩
              show (alookup (aset o1.embedded rel (.many rs)) rel).isSome = true
              rw [alookup_aset]
              simp

theorem foldEntries_complete {env : Env} {opts : Opts} {f : Nat} {ref : Ref} :
    ∀ (es : ReqEntries), ∀ (st st' : St), Pre st →
    foldEntries (fun rel child st1 => fetchAndEmbedLink env opts f ref rel child st1)
      es st = .ok st' →
    ∀ rel c0, EntIn rel c0 es →
    ∀ oSt oEnd, heapGet st.heap ref = some oSt → heapGet st'.heap ref = some oEnd →
    LinksResolvable oSt rel → (alookup oEnd.embedded rel).isSome = true := by
  intro es
  induction es using reqEntries_ind with
  | hnil =>
    intro st st' _ _ rel c0 hin
    exact absurd hin (by simp [EntIn])
  | hcons r0 c1 rest ih =>
    intro st st' hpre hrun rel c0 hin oSt oEnd hgSt hgEnd hres
    simp only [foldEntries] at hrun
    cases hs2 : fetchAndEmbedLink env opts f ref r0 c1 st with
    | error e2 => rw [hs2] at hrun; exact absurd hrun (by simp)
    | ok p =>
      obtain ⟨o1, st1⟩ := p
      rw [hs2] at hrun
      dsimp only at hrun
      have hsoK := (interp_master env opts f).2.2 ref r0 c1 st o1 st1 hpre hs2
      have hsoR := foldEntries_stepOK rest st1 st'
        (fun rel2 c2 st0 o2 st2 hin2 hpre0 hstep =>
          (interp_master env opts f).2.2 ref rel2 c2 st0 o2 st2 hpre0 hstep)
        hsoK.2.2.2.1 hrun
      obtain ⟨oMid, hgMid, _, _, _, hdomMid⟩ := hsoK.2.1 ref oSt hgSt
      rcases hin with ⟨heq1, heq2⟩ | hin2
      · subst heq1 heq2
        cases f with
        | zero => exact absurd hs2 (by simp [fetchAndEmbedLink])
        | succ g =>
          rcases fetchAndEmbedLink_cases hs2 with ⟨hst, hskip⟩ | ⟨o1', hg1', hsome⟩
          · exact absurd (hskip oSt hgSt) (resolvable_not_skipped hres)
          · rw [hgMid] at hg1'
            obtain rfl := Option.some_inj.mp hg1'
            obtain ⟨oE2, hgE2, _, _, _, hdomE⟩ := hsoR.2.1 ref oMid hgMid
            rw [hgEnd] at hgE2
            obtain rfl := Option.some_inj.mp hgE2
            exact hdomE rel hsome
      · have hresMid := objPres_resolvable hsoK.2.1 hgSt hgMid hres
        exact ih st1 st' hsoK.2.2.2.1 hrun rel c0 hin2 oMid oEnd hgMid hgEnd hresMid

theorem heapGet_lt_isSome {h : Heap} : ∀ {i : Nat}, i < h.length →
    ∃ o, heapGet h i = some o := by
  induction h with
  | nil => intro i hi; simp at hi
  | cons a rest ih =>
    intro i hi
    cases i with
    | zero => exact ⟨a, rfl⟩
    | succ j => exact ih (Nat.lt_of_succ_lt_succ hi)

theorem wfEnvW : WfEnv envW := by
  intro o u w h
  unfold envW at h
  by_cases hu : u = "b"
  · subst hu
    rw [if_pos rfl] at h
    obtain rfl := Option.some_inj.mp h
    rfl
  · rw [if_neg hu] at h
    exact absurd h (by simp)

theorem pre_empty : Pre ⟨[], [], []⟩ := by
  refine ⟨List.nodup_nil, ?_, ?_, ?_⟩
  · intro u hu
    exact absurd hu (by simp)
  · intro i o hg
    cases i <;> simp [heapGet, List.get?] at hg
  · intro u r h
    simp [alookup] at h

theorem selfInv_empty : SelfInv ⟨[], [], []⟩ := by
  intro u r h
  simp [alookup] at h

theorem preW0 : Pre stW0 := by
  refine ⟨List.nodup_nil, ?_, ?_, ?_⟩
  · intro u hu
    exact absurd hu (by simp [stW0])
  · intro i o hg
    cases i with
    | zero =>
      simp only [stW0, heapGet, List.get?] at hg
      obtain rfl := Option.some_inj.mp hg.symm
      refine ⟨rfl, rfl, by decide, ?_⟩
      intro rel v hv
      simp [objA0, alookup] at hv
    | succ j =>
      simp [stW0, heapGet, List.get?] at hg
  · intro u r h
    simp only [stW0, alookup] at h
    by_cases hu : ("a" : String) = u
    · rw [if_pos hu] at h
      obtain rfl := Option.some_inj.mp h
      show 0 < 1
      exact Nat.zero_lt_one
    · rw [if_neg hu] at h
      exact absurd h (by simp)

/-- The array-self corner of addToContext: a document whose self entry is
an array is processed without error — its undefined self href is coerced
to the property key "undefined", under which the resource is registered —
even though it has no single self link. -/
theorem runU_registers_undefined :
    runU = .ok (0, stUend) ∧ alookup stUend.ctx "undefined" = some 0 ∧
    selfAt stUend.heap 0 = none ∧
    selfKeyAt stUend.heap 0 = some "undefined" := by
  refine ⟨rfl, rfl, rfl, rfl⟩

/- ------------------------------------------------------------------ -/
/- Claim theorems                                                      -/
/- ------------------------------------------------------------------ -/

/-- C1 (counterexample): the identity half of the claim fails.  In the C1
run the URI x is referenced below both r1 and r2; the two attachment
points (the embedded maps of the documents b and c, heap cells 2 and 4)
hold two distinct resource instances for x (heap cells 1 and 3, both with
self href x), because each parent document pre-embedded its own clone and
registration overwrote the context slot.  The dedup half holds here: x is
never fetched (the transport log is exactly [b, c]). -/
theorem c1_counterexample :
    embOf runC1 2 = some [("x", [1])] ∧ embOf runC1 4 = some [("x", [3])] ∧
    selfOf runC1 1 = some "x" ∧ selfOf runC1 3 = some "x" ∧
    logOf runC1 = some ["b", "c"] ∧ (1 : Nat) ≠ 3 := by decide

/-- C1 (amended): the dedup half of the claim does hold: within one
top-level halJson call the transport is invoked at most once per URI (the
transport log of a successful run counts every URI at most once).  The
identical-instance half is refuted by c1_counterexample. -/
theorem c1_fetch_at_most_once (env : Env) (opts : Opts) (embeds : ReqChild)
    (w : HalWire) (r : Ref) (st : St) (u : String)
    (hrun : halJson env opts embeds w = .ok (r, st)) :
    st.log.count u ≤ 1 := by
  obtain ⟨ref, heap1, regs, _, _, _, _, hpre, _⟩ := halJson_spec hrun
  exact List.nodup_iff_count_le_one.mp hpre.1 u

theorem c1_fetch_at_most_once_witness : stWend.log.count "b" ≤ 1 :=
  c1_fetch_at_most_once envW ⟨ReqChild.null⟩ reqR rootW 0 stWend "b" (by rfl)

/-- C2 (confirmed): on any fuel budget at least 3 · depth(embed request)
plus two, the interpreter's answer exists (never the out-of-fuel marker)
and does not depend on the budget, for every environment — the link graph,
cyclic or not, plays no part; and a top-level halJson call never runs out
of fuel. -/
theorem c2_termination_depth_bound (env : Env) (opts : Opts) (c : ReqChild)
    (uri : String) (st : St) (f1 f2 : Nat)
    (h1 : 3 * depthJ c + 2 ≤ f1) (h2 : 3 * depthJ c + 2 ≤ f2) :
    fetchHalJson env opts f1 uri c st = fetchHalJson env opts f2 uri c st ∧
    fetchHalJson env opts f1 uri c st ≠ .error .fuelOut ∧
    (∀ embeds w, halJson env opts embeds w ≠ .error .fuelOut) := by
  have hb : fuelJ c ≤ 3 * depthJ c + 2 := by
    have hd := fuelL_le_depth c
    simp only [fuelJ]
    omega
  obtain ⟨heq, hne⟩ := (fuel_irrelevance env opts f1 f2).1 uri c st
    (le_trans hb h1) (le_trans hb h2)
  refine ⟨heq, hne, ?_⟩
  intro embeds w
  unfold halJson
  cases halloc : allocWire w [] with
  | none => simp
  | some trip =>
    obtain ⟨ref, heap1, regs⟩ := trip
    dsimp only
    exact ((fuel_irrelevance env opts (fuelL (effReq opts embeds))
      (fuelL (effReq opts embeds))).2.1 ref (effReq opts embeds) _
      (le_refl _) (le_refl _)).2

theorem c2_termination_depth_bound_witness :
    fetchHalJson envW ⟨ReqChild.null⟩ 5 "b" reqR ⟨[], [], []⟩ =
      fetchHalJson envW ⟨ReqChild.null⟩ 9 "b" reqR ⟨[], [], []⟩ ∧
    fetchHalJson envW ⟨ReqChild.null⟩ 5 "b" reqR ⟨[], [], []⟩ ≠ .error .fuelOut ∧
    halJson envW ⟨ReqChild.null⟩ reqR rootW ≠ .error .fuelOut := by
  obtain ⟨ha, hb, hc⟩ := c2_termination_depth_bound envW ⟨ReqChild.null⟩ reqR "b"
    ⟨[], [], []⟩ 5 9 (by decide) (by decide)
  exact ⟨ha, hb, hc reqR rootW⟩

/-- C3 (counterexample): a pre-existing embed does not take precedence.
In the C3 run the root (cell 1) both links r to l and already embeds a
resource with self href e (cell 0); the interpreter fetches l (the log is
[l]) and attaches the freshly fetched resource (cell 2, self href l),
discarding the pre-existing embed — the opposite of the claimed
precedence. -/
theorem c3_counterexample :
    rootOf runC3 = some 1 ∧ logOf runC3 = some ["l"] ∧
    embOf runC3 1 = some [("r", [2])] ∧ selfOf runC3 2 = some "l" ∧
    selfOf runC3 0 = some "e" ∧ selfOf runC3 2 ≠ selfOf runC3 0 := by decide

/-- C3 (amended): the precedence is the reverse of the claim: whenever the
relation exists in the links map, link resolution is entirely independent
of the embedded map (and of the heap) — the embedded map is consulted only
when the links map lacks the relation. -/
theorem c3_links_precedence (expand : String → Params → String) (h h2 : Heap)
    (o : HalObj) (rel : String) (params : Option Params)
    (emb2 : List (String × OneOrMany Ref))
    (hl : (alookup o.links rel).isSome = true) :
    linkHrefE expand h o rel params =
      linkHrefE expand h2 ⟨o.linksPresent, o.links, o.embPresent, emb2⟩ rel params := by
  cases hv : alookup o.links rel with
  | none => rw [hv] at hl; simp at hl
  | some v =>
    cases v with
    | one l =>
      rw [@linkHrefE_links_one expand h o rel params l hv,
        @linkHrefE_links_one expand h2
          ⟨o.linksPresent, o.links, o.embPresent, emb2⟩ rel params l hv]
    | many ls =>
      rw [@linkHrefE_links_many expand h o rel params ls hv,
        @linkHrefE_links_many expand h2
          ⟨o.linksPresent, o.links, o.embPresent, emb2⟩ rel params ls hv]

theorem c3_links_precedence_witness :
    linkHrefE (fun u _ => u) heapC3w objC3w "r" none =
      linkHrefE (fun u _ => u) []
        ⟨objC3w.linksPresent, objC3w.links, objC3w.embPresent, []⟩ "r" none :=
  c3_links_precedence (fun u _ => u) heapC3w [] objC3w "r" none [] (by decide)

/-- C4 (counterexample): a claimed slot is overwritten.  Allocating the C4
root registers, in order, a at cell 2, then x at cell 0, then x again at
cell 1; after the run the slot of x holds cell 1, not the first claimant
cell 0, and the two cells are different resources (their links maps have
different keys) — last sight wins, not first. -/
theorem c4_counterexample :
    allocRegs rootC4 = some [("a", 2), ("x", 0), ("x", 1)] ∧
    ctxOf runC4 = some [("a", 2), ("x", 1)] ∧
    linksKeysOf runC4 0 = some ["self", "p"] ∧
    linksKeysOf runC4 1 = some ["self"] ∧
    linksKeysOf runC4 0 ≠ linksKeysOf runC4 1 := by decide

/-- C4 (amended): what the context does guarantee: after a successful
top-level call against a well-formed environment, every context slot
holds a resource whose registration key is the slot's URI — for every
slot other than the coerced key "undefined" this means a resource whose
single self-link href is the slot's URI (overwrites replace a resource
by another registering under the same key; a resource whose self entry
is an array occupies the "undefined" slot) — and at every fetchHalJson
step a slot, once present, is never deleted. -/
theorem c4_context_selfhref (env : Env) (opts : Opts) (embeds : ReqChild)
    (w : HalWire) (r : Ref) (st : St)
    (hwf : WfEnv env) (hrun : halJson env opts embeds w = .ok (r, st)) :
    (∀ u rr, alookup st.ctx u = some rr →
      selfKeyAt st.heap rr = some u ∧
      (u ≠ "undefined" → selfAt st.heap rr = some u)) ∧
    (∀ f uri c st0 r0 st1, Pre st0 →
      fetchHalJson env opts f uri c st0 = .ok (r0, st1) →
      ∀ u, (alookup st0.ctx u).isSome = true → (alookup st1.ctx u).isSome = true) := by
  obtain ⟨ref, heap1, regs, _, _, _, _, _, hself⟩ := halJson_spec hrun
  refine ⟨?_, ?_⟩
  · intro u rr hlk
    have hk := hself hwf u rr hlk
    exact ⟨hk, fun hu => selfKeyAt_single hk hu⟩
  · intro f uri c st0 r0 st1 hpre0 hJ u hu
    exact ((interp_master env opts f).1 uri c st0 r0 st1 hpre0 hJ).1.2.2.1 u hu

theorem c4_context_selfhref_witness :
    (selfKeyAt stWend.heap 1 = some "b" ∧ selfAt stWend.heap 1 = some "b") ∧
    (alookup stW0.ctx "a").isSome = true := by
  obtain ⟨h1, h2⟩ := c4_context_selfhref envW ⟨ReqChild.null⟩ reqR rootW 0 stWend
    wfEnvW (by rfl)
  have hb := h1 "b" 1 (by rfl)
  exact ⟨⟨hb.1, hb.2 (by decide)⟩,
    h2 2 "a" ReqChild.null stW0 0 stW0 preW0 (by rfl) "a" (by decide)⟩

/-- C5 (counterexample): the links map is not defaulted when absent on the
wire: processing a root document that lacks the links map fails with a
TypeError instead of defaulting the map to empty. -/
theorem c5_counterexample : runC5 = .error .typeError := rfl

/-- C5 (amended): only the embedded map is defaulted; the links map must
already be present on the wire, with a self entry — a document missing
either fails with a TypeError, while an array-valued self entry is not an
error (its undefined href registers the resource under the coerced key
"undefined", see runU_registers_undefined).  What does hold on success:
the returned root reference is live, and every resource in the final heap
(the root and everything reachable from it) has both maps present and a
registration key — so callers can indeed dereference both maps without
checks. -/
theorem c5_maps_present (env : Env) (opts : Opts) (embeds : ReqChild)
    (w : HalWire) (r : Ref) (st : St)
    (hrun : halJson env opts embeds w = .ok (r, st)) :
    r < st.heap.length ∧
    (∀ i o, heapGet st.heap i = some o →
      o.linksPresent = true ∧ o.embPresent = true ∧ (selfKey o).isSome = true) := by
  obtain ⟨ref, heap1, regs, halloc, hr, hL, hso, hpre, _⟩ := halJson_spec hrun
  obtain ⟨hinit, hlt, _⟩ := halJson_init halloc
  refine ⟨?_, ?_⟩
  · rw [hr]
    exact Nat.lt_of_lt_of_le hlt hso.1
  · intro i o hg
    have hgood := hpre.2.2.1 i o hg
    exact ⟨hgood.1, hgood.2.1, hgood.2.2.1⟩

theorem c5_maps_present_witness :
    0 < stUend.heap.length ∧ objU.linksPresent = true ∧
    objU.embPresent = true ∧ (selfKey objU).isSome = true := by
  obtain ⟨h1, h2⟩ := c5_maps_present envNone ⟨ReqChild.null⟩ ReqChild.null rootU
    0 stUend (by rfl)
  exact ⟨h1, h2 0 objU (by rfl)⟩

/-- C6 (counterexample): expansion is not conditioned on the templated
flag.  The object objC6 carries a single non-templated link t with href u;
resolving t with params supplied still invokes the URI-template
collaborator (witnessed by the marker collaborator expMark), returning EXP
instead of the unchanged href u. -/
theorem c6_counterexample :
    alookup objC6.links "t" = some (.one (Link.mk "u" false)) ∧
    linkHrefE expMark [] objC6 "t" (some []) = .ok (some (.one "EXP")) ∧
    resolveUri expMark "u" (some []) = "EXP" ∧
    ("EXP" : String) ≠ "u" := by
  refine ⟨rfl, rfl, rfl, by decide⟩

/-- C6 (amended): the actual expansion condition: an href passes through
unchanged when no params are supplied, and also when it is the empty
string; in every other case it is handed to the URI-template collaborator
— regardless of the link's templated flag, which the source never
reads. -/
theorem c6_resolveUri_expansion (expand : String → Params → String)
    (uri : String) (p : Params) :
    resolveUri expand uri none = uri ∧
    resolveUri expand "" (some p) = "" ∧
    (uri ≠ "" → resolveUri expand uri (some p) = expand uri p) := by
  refine ⟨rfl, ?_, ?_⟩
  · simp [resolveUri]
  · intro hne
    simp only [resolveUri]
    rw [if_neg hne]

theorem c6_resolveUri_expansion_witness :
    resolveUri expMark "u" none = "u" ∧ resolveUri expMark "" (some []) = "" ∧
    resolveUri expMark "u" (some []) = expMark "u" [] := by
  obtain ⟨h1, h2, h3⟩ := c6_resolveUri_expansion expMark "u" []
  exact ⟨h1, h2, h3 (by decide)⟩

/-- C7 (confirmed): the linkHref contract: a relation present in the links
map resolves to its href(s); otherwise a relation present in the embedded
map resolves to the self href(s) of the embedded resource(s); otherwise
the result is absent (ok none, not an error); and in each case the
plurality of the result mirrors the plurality of the supplying source. -/
theorem c7_linkHref_contract (expand : String → Params → String) (h : Heap)
    (o : HalObj) (rel : String) (params : Option Params) :
    (∀ l, alookup o.links rel = some (.one l) →
      linkHrefE expand h o rel params =
        .ok (some (.one (resolveUri expand l.href params)))) ∧
    (∀ ls, alookup o.links rel = some (.many ls) →
      linkHrefE expand h o rel params =
        .ok (some (.many (ls.map (fun l => resolveUri expand l.href params))))) ∧
    (∀ r s, alookup o.links rel = none → alookup o.embedded rel = some (.one r) →
      selfAt h r = some s →
      linkHrefE expand h o rel params = .ok (some (.one s))) ∧
    (∀ rs ss, alookup o.links rel = none → alookup o.embedded rel = some (.many rs) →
      (rs.mapM (fun r => selfAt h r) : Option (List String)) = some ss →
      linkHrefE expand h o rel params = .ok (some (.many ss))) ∧
    (alookup o.links rel = none → alookup o.embedded rel = none →
      linkHrefE expand h o rel params = .ok none) := by
  refine ⟨?_, ?_, ?_, ?_, ?_⟩
  · intro l hl
    exact linkHrefE_links_one hl
  · intro ls hl
    exact linkHrefE_links_many hl
  · intro r s hl he hs
    exact linkHrefE_emb_one hl he hs
  · intro rs ss hl he hs
    exact linkHrefE_emb_many hl he hs
  · intro hl he
    exact linkHrefE_absent hl he

theorem c7_linkHref_contract_witness :
    linkHrefE (fun u _ => u) heapC7 objC7 "r1" none = .ok (some (.one "u1")) ∧
    linkHrefE (fun u _ => u) heapC7 objC7 "r2" none = .ok (some (.many ["u2", "u3"])) ∧
    linkHrefE (fun u _ => u) heapC7 objC7 "e1" none = .ok (some (.one "v")) ∧
    linkHrefE (fun u _ => u) heapC7 objC7 "m" none = .ok none := by
  refine ⟨?_, ?_, ?_, ?_⟩
  · exact (c7_linkHref_contract (fun u _ => u) heapC7 objC7 "r1" none).1 (lnk "u1") rfl
  · exact (c7_linkHref_contract (fun u _ => u) heapC7 objC7 "r2" none).2.1
      [lnk "u2", lnk "u3"] rfl
  · exact (c7_linkHref_contract (fun u _ => u) heapC7 objC7 "e1" none).2.2.1
      0 "v" rfl rfl rfl
  · exact (c7_linkHref_contract (fun u _ => u) heapC7 objC7 "m" none).2.2.2.2 rfl rfl

/-- C8 (counterexample): in the self-cycle scenario the nested embedded
map does have the rel key.  The attachment under r is the root instance
itself (cell 0), so A.embedded.r.embedded is the very map that holds r —
the claimed absence of the key at depth two is false (and matches the
repository's own circular-relations test). -/
theorem c8_counterexample :
    rootOf runC8 = some 0 ∧ embOf runC8 0 = some [("r", [0])] ∧
    selfOf runC8 0 = some "a" ∧ logOf runC8 = some [] := by decide

/-- C8 (amended): the full outcome of the self-cycle scenario: the run
succeeds without any transport invocation, the context holds the single
slot a at cell 0, and the root embeds itself under r — consequently every
nesting level of its embedded map carries the r key. -/
theorem c8_self_cycle_run :
    runC8 = .ok (0, stC8end) ∧ alookup stC8end.ctx "a" = some 0 ∧
    heapGet stC8end.heap 0 = some objC8end ∧
    alookup objC8end.embedded "r" = some (.one 0) := by
  refine ⟨rfl, rfl, rfl, rfl⟩

/-- C9 (confirmed): all-or-nothing embedding.  On a successful top-level
call, every requested relation that is resolvable from the root's links
map at the start has an embedded entry in the returned root (fully
embedded where resolvable); a failing entry fails the whole entry fold
with that very error (no partial result is returned); and a relation that
resolves to no target URI is skipped without error and without touching
the state. -/
theorem c9_all_or_nothing (env : Env) (opts : Opts) (embeds : ReqChild)
    (w : HalWire) (r : Ref) (st : St) (ref : Ref) (heap1 : Heap)
    (regs : List (String × Ref))
    (hrun : halJson env opts embeds w = .ok (r, st))
    (halloc : allocWire w [] = some (ref, heap1, regs)) :
    (∀ rel c0, EntIn rel c0 (reqEntries (effReq opts embeds)) →
      ∀ oSt oEnd, heapGet heap1 ref = some oSt → heapGet st.heap r = some oEnd →
      LinksResolvable oSt rel → (alookup oEnd.embedded rel).isSome = true) ∧
    (∀ f ref2 pre rel c suf st0 stM e1,
      foldEntries (fun rel2 c2 st2 =>
        fetchAndEmbedLink env opts f ref2 rel2 c2 st2) pre st0 = .ok stM →
      fetchAndEmbedLink env opts f ref2 rel c stM = .error e1 →
      foldEntries (fun rel2 c2 st2 =>
        fetchAndEmbedLink env opts f ref2 rel2 c2 st2)
        (entApp pre (.cons rel c suf)) st0 = .error e1) ∧
    (∀ f ref2 rel c st0 o0, heapGet st0.heap ref2 = some o0 →
      linkHrefE (fun u _ => u) st0.heap o0 rel none = .ok none →
      fetchAndEmbedLink env opts (f + 1) ref2 rel c st0 = .ok (none, st0)) := by
  obtain ⟨ref', heap1', regs', halloc', hr, hL, hso, hpre, _⟩ := halJson_spec hrun
  rw [halloc] at halloc'
  simp only [Option.some_inj, Prod.mk.injEq] at halloc'
  obtain ⟨he1, he2, he3⟩ := halloc'
  rw [← he1, ← he2, ← he3] at hL
  rw [← he1] at hr
  refine ⟨?_, ?_, ?_⟩
  · intro rel c0 hin oSt oEnd hgSt hgEnd hres
    obtain ⟨hinitPre, _, _⟩ := halJson_init halloc
    rw [hr] at hgEnd
    cases hfl : fuelL (effReq opts embeds) with
    | zero =>
      rw [hfl] at hL
      exact absurd hL (by simp [fetchAndEmbedLinks])
    | succ g =>
      rw [hfl] at hL
      simp only [fetchAndEmbedLinks] at hL
      cases hfold : foldEntries (fun rel2 child st1 =>
          fetchAndEmbedLink env opts g ref rel2 child st1)
          (reqEntries (effReq opts embeds))
          ⟨heap1, applyRegs regs [], []⟩ with
      | error e =>
        rw [hfold] at hL
        exact absurd hL (by simp)
      | ok st1 =>
        rw [hfold] at hL
        dsimp only at hL
        simp only [Except.ok.injEq, Prod.mk.injEq] at hL
        obtain ⟨heq, hst1⟩ := hL
        subst hst1
        exact foldEntries_complete (reqEntries (effReq opts embeds))
          ⟨heap1, applyRegs regs [], []⟩ st1 hinitPre hfold rel c0 hin
          oSt oEnd hgSt hgEnd hres
  · intro f ref2 pre rel c suf st0 stM e1 hpre0 hstep
    exact foldEntries_error pre suf hpre0 hstep
  · intro f ref2 rel c st0 o0 hg hlh
    simp only [fetchAndEmbedLink]
    rw [hg]
    dsimp only
    rw [hlh]

theorem c9_all_or_nothing_witness :
    (alookup objAW.embedded "r").isSome = true ∧
    fetchAndEmbedLink envW ⟨ReqChild.null⟩ 1 0 "m" ReqChild.null stW0 =
      .ok (none, stW0) := by
  obtain ⟨h1, _, h3⟩ := c9_all_or_nothing envW ⟨ReqChild.null⟩ reqR rootW 0 stWend
    0 [objAW0] [("a", 0)] (by rfl) (by rfl)
  refine ⟨h1 "r" ReqChild.null (Or.inl ⟨rfl, rfl⟩) objAW0 objAW rfl rfl
    (show ("b" : String) ≠ "" by decide), ?_⟩
  exact h3 0 0 "m" ReqChild.null stW0 objA0 rfl (by rfl)

/-- C10 (confirmed): the caller-facing defaulting: a null embeds argument
falls back to the embeds property of the options object, and with both
absent the document is processed under the empty embed request — the call
succeeds (given a registrable document) with no relation embedded and the
state exactly as allocated. -/
theorem c10_embeds_default (env : Env) (opts : Opts) (w : HalWire) :
    halJson env opts .null w = halJson env opts opts.embeds w ∧
    (∀ ref heap1 regs, allocWire w [] = some (ref, heap1, regs) →
      halJson env ⟨ReqChild.null⟩ .null w =
        .ok (ref, ⟨heap1, applyRegs regs [], []⟩)) := by
  refine ⟨?_, ?_⟩
  · have heff : effReq opts .null = effReq opts opts.embeds := by
      cases he : opts.embeds with
      | null => rfl
      | node q => exact he
    unfold halJson
    rw [heff]
  · intro ref heap1 regs halloc
    unfold halJson
    rw [halloc]
    dsimp only
    rfl

theorem c10_embeds_default_witness :
    halJson envW optsE .null rootW = halJson envW optsE optsE.embeds rootW ∧
    halJson envW ⟨ReqChild.null⟩ .null rootW =
      .ok (0, ⟨[objAW0], applyRegs [("a", 0)] [], []⟩) := by
  refine ⟨(c10_embeds_default envW optsE rootW).1, ?_⟩
  exact (c10_embeds_default envW ⟨ReqChild.null⟩ rootW).2 0 [objAW0] [("a", 0)] rfl

end Hally
